import Mathlib

/-!
Shallow embedding of the Butterworth filter synthesis core of the repository
(`src/codes/Q2/butterworth_filter.rs`, `src/codes/Q2/src/filter_response.rs`,
`src/codes/Q2/src/test_cutoff.rs`).  Floating-point `f64` values are modelled
as real numbers; the control flow (the pole-classification threshold `1e-10`,
the pairing of consecutive poles in the cascade loop, the normalization steps,
the grid searches) is translated branch for branch from the Rust source.
-/

noncomputable section

open Real

/-- Embedding of `convolve` from `butterworth_filter.rs`: discrete convolution of two
coefficient vectors; entry `n` accumulates `a[i] * b[j]` over `i + j = n`. -/
def convolve (a b : List ℝ) : List ℝ :=
  (List.range (a.length + b.length - 1)).map
    (fun n => ∑ i in Finset.range (n + 1), a.getD i 0 * b.getD (n - i) 0)

/-- Sum of a map over `List.range` as a `Finset` sum. -/
theorem list_map_range_sum {M : Type _} [AddCommMonoid M] (f : ℕ → M) (n : ℕ) :
    ((List.range n).map f).sum = ∑ i in Finset.range n, f i := by
  induction n with
  | zero => simp
  | succ n ih => rw [List.range_succ, List.map_append, List.sum_append,
      Finset.sum_range_succ, ih]; simp

/-- A list's sum written through `getD`. -/
theorem list_sum_getD (l : List ℝ) : l.sum = ∑ i in Finset.range l.length, l.getD i 0 := by
  induction l with
  | nil => simp
  | cons x xs ih =>
      rw [List.sum_cons, ih, List.length_cons, Finset.sum_range_succ']
      simp [add_comm]

/-- Value of `getD` on a map over `List.range` below the length. -/
theorem getD_map_range {α : Type _} (f : ℕ → α) {i n : ℕ} (h : i < n) (d : α) :
    ((List.range n).map f).getD i d = f i := by
  rw [List.getD_eq_getElem?_getD]
  rw [List.getElem?_eq_getElem (by simpa using h)]
  simp

theorem length_convolve (a b : List ℝ) :
    (convolve a b).length = a.length + b.length - 1 := by
  simp [convolve]

theorem getD_zero_convolve (a b : List ℝ) :
    (convolve a b).getD 0 0 = a.getD 0 0 * b.getD 0 0 := by
  rcases a with - | ⟨x, xs⟩
  · simp [convolve]
  rcases b with - | ⟨y, ys⟩
  · simp [convolve]
  have h : 0 < (x :: xs).length + (y :: ys).length - 1 := by simp
  rw [convolve, getD_map_range _ h]
  simp

/-- The Cauchy-product identity: the entries of `convolve a b` sum to
`a.sum * b.sum`. -/
theorem sum_convolve (a b : List ℝ) : (convolve a b).sum = a.sum * b.sum := by
  classical
  set la := a.length with hla
  set lb := b.length with hlb
  set N := la + lb - 1 with hN
  rw [convolve, list_map_range_sum]
  have h1 : ∀ n, ∑ i in Finset.range (n + 1), a.getD i 0 * b.getD (n - i) 0 =
      ∑ p in Finset.antidiagonal n, a.getD p.1 0 * b.getD p.2 0 := by
    intro n
    rw [Finset.Nat.sum_antidiagonal_eq_sum_range_succ_mk]
  simp_rw [h1]
  rw [← Finset.sum_biUnion]
  · have hsub : Finset.range la ×ˢ Finset.range lb ⊆
        (Finset.range N).biUnion (fun n => Finset.antidiagonal n) := by
      intro p hp
      rw [Finset.mem_product, Finset.mem_range, Finset.mem_range] at hp
      rw [Finset.mem_biUnion]
      refine ⟨p.1 + p.2, ?_, ?_⟩
      · rw [Finset.mem_range, hN]
        omega
      · simp [Finset.mem_antidiagonal]
    rw [← Finset.sum_subset hsub]
    · rw [Finset.sum_product, list_sum_getD a, list_sum_getD b, Finset.sum_mul_sum]
    · intro p _ hp
      rw [Finset.mem_product, Finset.mem_range, Finset.mem_range] at hp
      push_neg at hp
      rcases lt_or_le p.1 la with h | h
      · rw [List.getD_eq_default b 0 (hp h)]
        ring
      · rw [List.getD_eq_default a 0 h]
        ring
  · intro m _ n _ hmn
    refine Finset.disjoint_left.mpr (fun p hpm hpn => ?_)
    rw [Finset.mem_antidiagonal] at hpm hpn
    exact hmn (by omega)

/-- The angle `θ_k = π·(2k + order + 1) / (2·order)` used by
`butterworth_analog_poles`. -/
def poleAngle (order k : ℕ) : ℝ :=
  Real.pi * (2 * (k : ℝ) + (order : ℝ) + 1) / (2 * (order : ℝ))

/-- Embedding of `butterworth_analog_poles` from `butterworth_filter.rs`:
`(0..order).map(|k| (θ_k.cos(), θ_k.sin()))`. -/
def butterworth_analog_poles (order : ℕ) : List (ℝ × ℝ) :=
  (List.range order).map (fun k => (Real.cos (poleAngle order k), Real.sin (poleAngle order k)))

/-- The digital pole of the first-order branch of the cascade loop:
`z_pole = (2 + pr·t) / (2 − pr·t)`. -/
def zPoleReal (t pr1 : ℝ) : ℝ := (2 + pr1 * t) / (2 - pr1 * t)

/-- The digital pole `(z1_re, z1_im)` of the second-order branch of the
cascade loop, computed by complex division exactly as in the source. -/
def z1Complex (t pr1 pi1 : ℝ) : ℝ × ℝ :=
  let denom_re := 2 - pr1 * t
  let denom_im := -pi1 * t
  let denom_mag_sq := denom_re * denom_re + denom_im * denom_im
  (((2 + pr1 * t) * denom_re + pi1 * t * denom_im) / denom_mag_sq,
   ((pi1 * t) * denom_re - (2 + pr1 * t) * denom_im) / denom_mag_sq)

/-- The while loop of `bilinear_transform_cascade`: walks the pole list,
classifying the current pole via `|im| < 1e-10`; a "real" pole contributes a
first-order section, a "complex" pole with a successor contributes a
second-order section and also consumes that successor, and a trailing
"complex" pole without a successor is skipped. -/
def cascadeLoop (t : ℝ) : List (ℝ × ℝ) → List ℝ → List ℝ → List ℝ × List ℝ
  | [], b_total, a_total => (b_total, a_total)
  | (pr1, pi1) :: rest, b_total, a_total =>
    if |pi1| < 1e-10 then
      cascadeLoop t rest (convolve b_total [1, 1])
        (convolve a_total [1, -zPoleReal t pr1])
    else
      match rest with
      | [] => (b_total, a_total)
      | _ :: rest2 =>
        cascadeLoop t rest2 (convolve b_total [1, 2, 1])
          (convolve a_total
            [1, -2 * (z1Complex t pr1 pi1).1,
             (z1Complex t pr1 pi1).1 * (z1Complex t pr1 pi1).1 +
               (z1Complex t pr1 pi1).2 * (z1Complex t pr1 pi1).2])

/-- Embedding of `bilinear_transform_cascade` from `butterworth_filter.rs`: run the cascade
loop starting from `b = a = [1]`, then divide everything by `a[0]`, then
rescale the numerator by `gain = sum(a) / sum(b)`. -/
def bilinear_transform_cascade (poles : List (ℝ × ℝ)) (fs : ℝ) : List ℝ × List ℝ :=
  let t := 1 / fs
  let ba := cascadeLoop t poles [1] [1]
  let a0 := ba.2.getD 0 0
  let a_total := ba.2.map (· / a0)
  let b_total := ba.1.map (· / a0)
  let b_sum := b_total.sum
  let a_sum := a_total.sum
  let gain := a_sum / b_sum
  (b_total.map (· * gain), a_total)

/-- The pre-warped analog cutoff `wc = 2·fs·tan(π·cutoff/fs)`. -/
def prewarp (cutoff fs : ℝ) : ℝ := 2 * fs * Real.tan (Real.pi * cutoff / fs)

/-- The scaled analog poles used by the low-pass design: every prototype pole
multiplied componentwise by `wc`. -/
def scaledLowpassPoles (order : ℕ) (cutoff fs : ℝ) : List (ℝ × ℝ) :=
  (butterworth_analog_poles order).map
    (fun p => (p.1 * prewarp cutoff fs, p.2 * prewarp cutoff fs))

/-- Embedding of `design_butterworth_digital_lowpass` from `butterworth_filter.rs`. -/
def design_butterworth_digital_lowpass (order : ℕ) (cutoff fs : ℝ) : List ℝ × List ℝ :=
  bilinear_transform_cascade (scaledLowpassPoles order cutoff fs) fs

/-- Negate every odd-indexed coefficient (the spectral-inversion step of
`design_butterworth_digital_highpass`). -/
def negOdd (c : List ℝ) : List ℝ :=
  (List.range c.length).map (fun i => if i % 2 = 1 then -(c.getD i 0) else c.getD i 0)

/-- Embedding of `design_butterworth_digital_highpass` from `butterworth_filter.rs`:
low-pass design at the mirrored cutoff `fs/2 − cutoff`, then odd-indexed
coefficients of `b` and `a` negated. -/
def design_butterworth_digital_highpass (order : ℕ) (cutoff fs : ℝ) : List ℝ × List ℝ :=
  let lp_cutoff := fs / 2 - cutoff
  let ba := design_butterworth_digital_lowpass order lp_cutoff fs
  (negOdd ba.1, negOdd ba.2)

/-- Embedding of `FilterType` from `butterworth_filter.rs`. -/
inductive FilterType where
  | Lowpass : FilterType
  | Highpass : FilterType

/-- Embedding of the `ButterworthFilter` struct from `butterworth_filter.rs`. -/
structure ButterworthFilter where
  b : List ℝ
  a : List ℝ
  order : ℕ
  cutoff : ℝ
  sample_rate : ℝ
  filter_type : FilterType

/-- Embedding of `ButterworthFilter::lowpass`. -/
def ButterworthFilter.lowpass (order : ℕ) (cutoff sample_rate : ℝ) : ButterworthFilter :=
  let ba := design_butterworth_digital_lowpass order cutoff sample_rate
  ⟨ba.1, ba.2, order, cutoff, sample_rate, FilterType.Lowpass⟩

/-- Embedding of `ButterworthFilter::highpass`. -/
def ButterworthFilter.highpass (order : ℕ) (cutoff sample_rate : ℝ) : ButterworthFilter :=
  let ba := design_butterworth_digital_highpass order cutoff sample_rate
  ⟨ba.1, ba.2, order, cutoff, sample_rate, FilterType.Highpass⟩

/-- Embedding of `frequency_response_at_omega` (identical in `filter_response.rs` and
`test_cutoff.rs`): `H(e^{jω}) = (Σ_k b[k]·e^{−jωk}) / (Σ_k a[k]·e^{−jωk})`,
with each `e^{−jωk}` built as `Complex::new(cos(−kω), sin(−kω))`. -/
def frequency_response_at_omega (filter : ButterworthFilter) (omega : ℝ) : ℂ :=
  let numerator := ∑ k in Finset.range filter.b.length,
    ((filter.b.getD k 0 : ℝ) : ℂ) *
      ⟨Real.cos (-(k : ℝ) * omega), Real.sin (-(k : ℝ) * omega)⟩
  let denominator := ∑ k in Finset.range filter.a.length,
    ((filter.a.getD k 0 : ℝ) : ℂ) *
      ⟨Real.cos (-(k : ℝ) * omega), Real.sin (-(k : ℝ) * omega)⟩
  numerator / denominator

/-- Embedding of the `FilterResponse` struct from `filter_response.rs`. -/
structure FilterResponse where
  frequencies : List ℝ
  magnitude : List ℝ
  phase : List ℝ
  complex_response : List ℂ

/-- Embedding of `FilterResponse::compute`: for `k = 0 ..= num_points/2`, frequency
`k·fs/num_points`, normalized `ω = 2π·freq/fs`, and the response `H` there. -/
def FilterResponse.compute (filter : ButterworthFilter) (sample_rate : ℝ)
    (num_points : ℕ) : FilterResponse :=
  let freqs := (List.range (num_points / 2 + 1)).map
    (fun (k : ℕ) => (k : ℝ) * sample_rate / (num_points : ℝ))
  { frequencies := freqs
    magnitude := freqs.map (fun freq =>
      Complex.abs (frequency_response_at_omega filter (2 * Real.pi * freq / sample_rate)))
    phase := freqs.map (fun freq =>
      (frequency_response_at_omega filter (2 * Real.pi * freq / sample_rate)).arg)
    complex_response := freqs.map (fun freq =>
      frequency_response_at_omega filter (2 * Real.pi * freq / sample_rate)) }

/-- Embedding of `magnitude_to_db` from `filter_response.rs`. -/
def magnitude_to_db (magnitude : ℝ) : ℝ := 20 * Real.logb 10 (max magnitude 1e-10)

/-- Embedding of `phase_to_degrees` from `filter_response.rs`. -/
def phase_to_degrees (phase_rad : ℝ) : ℝ := phase_rad * 180 / Real.pi

/-- The magnitude `|H(2π·freq/fs)|` tested by `find_3db_cutoff`. -/
def magAt (filter : ButterworthFilter) (sample_rate freq : ℝ) : ℝ :=
  Complex.abs (frequency_response_at_omega filter (2 * Real.pi * freq / sample_rate))

/-- The error `| |H(f)| − 1/√2 |` minimized by `find_3db_cutoff`. -/
def cutoffErr (filter : ButterworthFilter) (sample_rate freq : ℝ) : ℝ :=
  |magAt filter sample_rate freq - 1 / Real.sqrt 2|

/-- One step of the grid search: keep the new frequency iff its error is
strictly smaller than the best error so far (initially `f64::INFINITY`,
modelled as `⊤ : WithTop ℝ`). -/
def scanUpdate (err : ℝ → ℝ) (st : ℝ × WithTop ℝ) (freq : ℝ) : ℝ × WithTop ℝ :=
  if ((err freq : ℝ) : WithTop ℝ) < st.2 then (freq, ((err freq : ℝ) : WithTop ℝ)) else st

/-- The 10000 coarse-phase frequencies `i·(fs/2)/10000`, `i = 0..9999`. -/
def coarseFreqList (sample_rate : ℝ) : List ℝ :=
  (List.range 10000).map (fun (i : ℕ) => (i : ℝ) * (sample_rate / 2) / 10000)

/-- The coarse phase of `find_3db_cutoff`: fold the update step over the
coarse frequencies starting from `(0, ∞)`. -/
def coarseScan (filter : ButterworthFilter) (sample_rate : ℝ) : ℝ × WithTop ℝ :=
  (coarseFreqList sample_rate).foldl (scanUpdate (cutoffErr filter sample_rate)) (0, ⊤)

/-- One step of the fine scan (the body of the second loop of
`find_3db_cutoff`): the candidate frequency is recomputed from the *current*
`best_freq` (`st.1`) as `best_freq − search_range/2 + i·search_range/1000`
with `search_range = (fs/2)/10000`; it is skipped when outside
`[0, nyquist]`, otherwise subjected to the strict-improvement update. -/
def fineStep (filter : ButterworthFilter) (sample_rate : ℝ)
    (st : ℝ × WithTop ℝ) (i : ℕ) : ℝ × WithTop ℝ :=
  let freq := st.1 - (sample_rate / 2 / 10000) / 2 +
    (i : ℝ) * (sample_rate / 2 / 10000) / 1000
  if freq < 0 ∨ sample_rate / 2 < freq then st
  else scanUpdate (cutoffErr filter sample_rate) st freq

/-- Embedding of `find_3db_cutoff` from `test_cutoff.rs`: the coarse scan,
then the fine loop folding `fineStep` over `i = 0..999` starting from the
coarse state.  Because `best_freq` is mutated inside the fine loop and each
candidate is recomputed from it, the fine grid re-centres itself whenever an
improvement is found. -/
def find_3db_cutoff (filter : ButterworthFilter) (sample_rate : ℝ)
    ( is_highpass : Bool) : ℝ :=
  ((List.range 1000).foldl (fineStep filter sample_rate)
    (coarseScan filter sample_rate)).1

/-- A cascade section: either a first-order section built from a pole the
loop classified as real (carrying its digital pole `z`), or a second-order
section built from a pole classified as complex (carrying its digital pole
`z1`). -/
inductive CascadeSection where
  | fo (z : ℝ) : CascadeSection
  | so (z1 : ℝ × ℝ) : CascadeSection

/-- Numerator coefficients of a section: `[1, 1]` or `[1, 2, 1]`. -/
def secNum : CascadeSection → List ℝ
  | CascadeSection.fo _ => [1, 1]
  | CascadeSection.so _ => [1, 2, 1]

/-- Denominator coefficients of a section: `[1, −z]` or
`[1, −2·Re z1, |z1|²]`. -/
def secDen : CascadeSection → List ℝ
  | CascadeSection.fo z => [1, -z]
  | CascadeSection.so z1 => [1, -2 * z1.1, z1.1 * z1.1 + z1.2 * z1.2]

/-- Polynomial degree contributed by a section. -/
def secDeg : CascadeSection → ℕ
  | CascadeSection.fo _ => 1
  | CascadeSection.so _ => 2

/-- The digital pole carried by a section (a real pole is `(z, 0)`). -/
def sectionPole : CascadeSection → ℝ × ℝ
  | CascadeSection.fo z => (z, 0)
  | CascadeSection.so z1 => z1

/-- Whether a section is first-order. -/
def CascadeSection.isFirstOrder : CascadeSection → Bool
  | CascadeSection.fo _ => true
  | CascadeSection.so _ => false

/-- The sections assembled by the while loop of `bilinear_transform_cascade`,
in order: they follow exactly the branch structure of `cascadeLoop`. -/
def cascadeSections (t : ℝ) : List (ℝ × ℝ) → List CascadeSection
  | [] => []
  | (pr1, pi1) :: rest =>
    if |pi1| < 1e-10 then
      CascadeSection.fo (zPoleReal t pr1) :: cascadeSections t rest
    else
      match rest with
      | [] => []
      | _ :: rest2 => CascadeSection.so (z1Complex t pr1 pi1) :: cascadeSections t rest2

/-- Unfolding: a pole classified as real prepends a first-order section. -/
theorem cascadeSections_cons_real (t pr1 pi1 : ℝ) (rest : List (ℝ × ℝ))
    (h : |pi1| < 1e-10) :
    cascadeSections t ((pr1, pi1) :: rest) =
      CascadeSection.fo (zPoleReal t pr1) :: cascadeSections t rest := by
  rw [cascadeSections.eq_def]
  simp only [if_pos h]

/-- Unfolding: a trailing pole classified as complex is dropped. -/
theorem cascadeSections_last_complex (t pr1 pi1 : ℝ) (h : ¬ |pi1| < 1e-10) :
    cascadeSections t [(pr1, pi1)] = [] := by
  rw [cascadeSections.eq_def]
  simp only [if_neg h]

/-- Unfolding: a pole classified as complex with a successor prepends a
second-order section and consumes the successor. -/
theorem cascadeSections_cons_complex (t pr1 pi1 : ℝ) (q : ℝ × ℝ)
    (rest2 : List (ℝ × ℝ)) (h : ¬ |pi1| < 1e-10) :
    cascadeSections t ((pr1, pi1) :: q :: rest2) =
      CascadeSection.so (z1Complex t pr1 pi1) :: cascadeSections t rest2 := by
  rw [cascadeSections.eq_def]
  simp only [if_neg h]

/-- Unfolding of `cascadeLoop`, real-pole branch. -/
theorem cascadeLoop_cons_real (t pr1 pi1 : ℝ) (rest : List (ℝ × ℝ)) (b a : List ℝ)
    (h : |pi1| < 1e-10) :
    cascadeLoop t ((pr1, pi1) :: rest) b a =
      cascadeLoop t rest (convolve b [1, 1]) (convolve a [1, -zPoleReal t pr1]) := by
  rw [cascadeLoop.eq_def]
  simp only [if_pos h]

/-- Unfolding of `cascadeLoop`, trailing complex pole. -/
theorem cascadeLoop_last_complex (t pr1 pi1 : ℝ) (b a : List ℝ)
    (h : ¬ |pi1| < 1e-10) :
    cascadeLoop t [(pr1, pi1)] b a = (b, a) := by
  rw [cascadeLoop.eq_def]
  simp only [if_neg h]

/-- Unfolding of `cascadeLoop`, complex-pole branch with successor. -/
theorem cascadeLoop_cons_complex (t pr1 pi1 : ℝ) (q : ℝ × ℝ)
    (rest2 : List (ℝ × ℝ)) (b a : List ℝ) (h : ¬ |pi1| < 1e-10) :
    cascadeLoop t ((pr1, pi1) :: q :: rest2) b a =
      cascadeLoop t rest2 (convolve b [1, 2, 1])
        (convolve a
          [1, -2 * (z1Complex t pr1 pi1).1,
           (z1Complex t pr1 pi1).1 * (z1Complex t pr1 pi1).1 +
             (z1Complex t pr1 pi1).2 * (z1Complex t pr1 pi1).2]) := by
  rw [cascadeLoop.eq_def]
  simp only [if_neg h]

/-- The loop `cascadeLoop` equals folding `convolve` over the numerators and
denominators of `cascadeSections`: the loop combines exactly these sections
by convolution. -/
theorem cascadeLoop_eq_fold (t : ℝ) (poles : List (ℝ × ℝ)) (bT aT : List ℝ) :
    cascadeLoop t poles bT aT =
      ((cascadeSections t poles).foldl (fun acc s => convolve acc (secNum s)) bT,
       (cascadeSections t poles).foldl (fun acc s => convolve acc (secDen s)) aT) := by
  induction poles, bT, aT using cascadeLoop.induct (t := t) with
  | case1 b a => rfl
  | case2 pr1 pi1 rest b a hre ih =>
      rw [cascadeLoop_cons_real t pr1 pi1 rest b a hre,
        cascadeSections_cons_real t pr1 pi1 rest hre, ih]
      rfl
  | case3 pr1 pi1 b a hre =>
      rw [cascadeLoop_last_complex t pr1 pi1 b a hre,
        cascadeSections_last_complex t pr1 pi1 hre]
      rfl
  | case4 pr1 pi1 b a hre q rest2 ih =>
      rw [cascadeLoop_cons_complex t pr1 pi1 q rest2 b a hre,
        cascadeSections_cons_complex t pr1 pi1 q rest2 hre, ih]
      rfl

theorem secNum_length (s : CascadeSection) : (secNum s).length = secDeg s + 1 := by
  cases s <;> rfl

theorem secDen_length (s : CascadeSection) : (secDen s).length = secDeg s + 1 := by
  cases s <;> rfl

theorem secNum_headD (s : CascadeSection) : (secNum s).getD 0 0 = 1 := by
  cases s <;> rfl

theorem secDen_headD (s : CascadeSection) : (secDen s).getD 0 0 = 1 := by
  cases s <;> rfl

theorem secNum_sum (s : CascadeSection) :
    (secNum s).sum = 2 ∨ (secNum s).sum = 4 := by
  cases s
  · left; norm_num [secNum]
  · right; norm_num [secNum]

/-- Folding convolution over sections adds the section degrees to the length. -/
theorem fold_convolve_length (f : CascadeSection → List ℝ)
    (hf : ∀ s, (f s).length = secDeg s + 1) (secs : List CascadeSection) :
    ∀ init : List ℝ, init ≠ [] →
      (secs.foldl (fun acc s => convolve acc (f s)) init).length =
        init.length + (secs.map secDeg).sum := by
  induction secs with
  | nil => intro init _; simp
  | cons s secs ih =>
      intro init hinit
      rw [List.foldl_cons]
      have hlen : (convolve init (f s)).length = init.length + secDeg s := by
        rw [length_convolve, hf s]
        have : 1 ≤ init.length := List.length_pos.mpr hinit
        omega
      have hne : convolve init (f s) ≠ [] := by
        rw [← List.length_pos, hlen]
        have : 1 ≤ init.length := List.length_pos.mpr hinit
        omega
      rw [ih _ hne, hlen, List.map_cons, List.sum_cons]
      omega

/-- Folding convolution over sections keeps the leading coefficient, since
every section's leading coefficient is `1`. -/
theorem fold_convolve_headD (f : CascadeSection → List ℝ)
    (hf : ∀ s, (f s).getD 0 0 = 1) (secs : List CascadeSection) :
    ∀ init : List ℝ,
      (secs.foldl (fun acc s => convolve acc (f s)) init).getD 0 0 =
        init.getD 0 0 := by
  induction secs with
  | nil => intro init; rfl
  | cons s secs ih =>
      intro init
      rw [List.foldl_cons, ih, getD_zero_convolve, hf s, mul_one]

/-- Folding convolution over sections multiplies the coefficient sums. -/
theorem fold_convolve_sum (f : CascadeSection → List ℝ) (secs : List CascadeSection) :
    ∀ init : List ℝ,
      (secs.foldl (fun acc s => convolve acc (f s)) init).sum =
        init.sum * (secs.map (fun s => (f s).sum)).prod := by
  induction secs with
  | nil => intro init; simp
  | cons s secs ih =>
      intro init
      rw [List.foldl_cons, ih, sum_convolve, List.map_cons, List.prod_cons]
      ring

/-- Multiplying every entry of a list by a constant multiplies the sum. -/
theorem list_sum_map_mul_right (l : List ℝ) (c : ℝ) :
    (l.map (· * c)).sum = l.sum * c := by
  induction l with
  | nil => simp
  | cons x xs ih => rw [List.map_cons, List.sum_cons, List.sum_cons, ih]; ring

/-- Total polynomial degree of the assembled cascade. -/
def cascadeDegreeSum (t : ℝ) (poles : List (ℝ × ℝ)) : ℕ :=
  ((cascadeSections t poles).map secDeg).sum

theorem cascadeLoop_b_length (t : ℝ) (P : List (ℝ × ℝ)) :
    (cascadeLoop t P [1] [1]).1.length = 1 + cascadeDegreeSum t P := by
  rw [cascadeLoop_eq_fold, cascadeDegreeSum]
  exact fold_convolve_length secNum secNum_length _ [1] (by simp)

theorem cascadeLoop_a_length (t : ℝ) (P : List (ℝ × ℝ)) :
    (cascadeLoop t P [1] [1]).2.length = 1 + cascadeDegreeSum t P := by
  rw [cascadeLoop_eq_fold, cascadeDegreeSum]
  exact fold_convolve_length secDen secDen_length _ [1] (by simp)

theorem cascadeLoop_a_headD (t : ℝ) (P : List (ℝ × ℝ)) :
    (cascadeLoop t P [1] [1]).2.getD 0 0 = 1 := by
  rw [cascadeLoop_eq_fold]
  exact fold_convolve_headD secDen secDen_headD _ [1]

theorem cascadeLoop_b_sum_pos (t : ℝ) (P : List (ℝ × ℝ)) :
    0 < (cascadeLoop t P [1] [1]).1.sum := by
  rw [cascadeLoop_eq_fold]
  rw [fold_convolve_sum secNum _ [1]]
  rw [List.sum_singleton, one_mul]
  refine List.prod_pos (fun x hx => ?_)
  rw [List.mem_map] at hx
  obtain ⟨s, -, rfl⟩ := hx
  rcases secNum_sum s with h | h <;> rw [h] <;> norm_num

/-- Since the raw leading denominator coefficient is always exactly `1`, the
`a0` division in `bilinear_transform_cascade` is the identity and the result
is the raw cascade with the numerator rescaled by `sum(a)/sum(b)`. -/
theorem bilinear_reduce (P : List (ℝ × ℝ)) (fs : ℝ) :
    bilinear_transform_cascade P fs =
      ((cascadeLoop (1 / fs) P [1] [1]).1.map
         (· * ((cascadeLoop (1 / fs) P [1] [1]).2.sum /
               (cascadeLoop (1 / fs) P [1] [1]).1.sum)),
       (cascadeLoop (1 / fs) P [1] [1]).2) := by
  have ha0 := cascadeLoop_a_headD (1 / fs) P
  simp only [bilinear_transform_cascade, ha0, div_one, List.map_id']

theorem bilinear_b_length (P : List (ℝ × ℝ)) (fs : ℝ) :
    (bilinear_transform_cascade P fs).1.length = 1 + cascadeDegreeSum (1 / fs) P := by
  rw [bilinear_reduce, List.length_map]
  exact cascadeLoop_b_length _ _

theorem bilinear_a_length (P : List (ℝ × ℝ)) (fs : ℝ) :
    (bilinear_transform_cascade P fs).2.length = 1 + cascadeDegreeSum (1 / fs) P := by
  rw [bilinear_reduce]
  exact cascadeLoop_a_length _ _

theorem bilinear_a_headD (P : List (ℝ × ℝ)) (fs : ℝ) :
    (bilinear_transform_cascade P fs).2.getD 0 0 = 1 := by
  rw [bilinear_reduce]
  exact cascadeLoop_a_headD _ _

/-- After normalization the numerator and denominator coefficient sums agree:
the rescaling by `gain = sum(a)/sum(b)` makes `sum(b) = sum(a)` exactly (the
raw `sum(b)` is a product of section sums `2` and `4`, hence nonzero). -/
theorem bilinear_sum_eq (P : List (ℝ × ℝ)) (fs : ℝ) :
    (bilinear_transform_cascade P fs).1.sum = (bilinear_transform_cascade P fs).2.sum := by
  rw [bilinear_reduce]
  have hb := cascadeLoop_b_sum_pos (1 / fs) P
  rw [list_sum_map_mul_right]
  field_simp

/-- The pole angles lie strictly between `π/2` and `3π/2`. -/
theorem poleAngle_bounds (n k : ℕ) (hk : k < n) :
    Real.pi / 2 < poleAngle n k ∧ poleAngle n k < 3 * (Real.pi / 2) := by
  have hn : 0 < (n : ℝ) := by
    have : 0 < n := Nat.pos_of_ne_zero (by rintro rfl; exact Nat.not_lt_zero k hk)
    exact_mod_cast this
  have hkr : (k : ℝ) ≤ (n : ℝ) - 1 := by
    have : (k : ℝ) + 1 ≤ (n : ℝ) := by exact_mod_cast hk
    linarith
  have hpi := Real.pi_pos
  constructor
  · rw [poleAngle, div_lt_div_iff (by norm_num) (by positivity)]
    have h1 : (0 : ℝ) < 2 * (k : ℝ) + 1 := by positivity
    nlinarith
  · rw [poleAngle, div_lt_iff (by positivity)]
    nlinarith

/-- Every analog prototype pole has strictly negative real part. -/
theorem analog_pole_re_neg (n k : ℕ) (hk : k < n) :
    Real.cos (poleAngle n k) < 0 := by
  obtain ⟨h1, h2⟩ := poleAngle_bounds n k hk
  refine Real.cos_neg_of_pi_div_two_lt_of_lt h1 ?_
  have hpi := Real.pi_pos
  linarith

theorem butterworth_analog_poles_re_neg (n : ℕ) :
    ∀ p ∈ butterworth_analog_poles n, p.1 < 0 := by
  intro p hp
  rw [butterworth_analog_poles, List.mem_map] at hp
  obtain ⟨k, hk, rfl⟩ := hp
  rw [List.mem_range] at hk
  exact analog_pole_re_neg n k hk

/-- The pre-warped cutoff is positive for a valid cutoff. -/
theorem prewarp_pos (fc fs : ℝ) (h0 : 0 < fc) (h1 : fc < fs / 2) :
    0 < prewarp fc fs := by
  have hfs : 0 < fs := by linarith
  have hpi := Real.pi_pos
  have harg0 : 0 < Real.pi * fc / fs := by positivity
  have harg1 : Real.pi * fc / fs < Real.pi / 2 := by
    rw [div_lt_div_iff hfs (by norm_num)]
    nlinarith
  have := Real.tan_pos_of_pos_of_lt_pi_div_two harg0 harg1
  rw [prewarp]
  positivity

/-- Every scaled analog pole of a valid low-pass design has strictly
negative real part. -/
theorem scaledLowpassPoles_re_neg (n : ℕ) (fc fs : ℝ) (h0 : 0 < fc)
    (h1 : fc < fs / 2) :
    ∀ p ∈ scaledLowpassPoles n fc fs, p.1 < 0 := by
  intro p hp
  rw [scaledLowpassPoles, List.mem_map] at hp
  obtain ⟨q, hq, rfl⟩ := hp
  exact mul_neg_of_neg_of_pos (butterworth_analog_poles_re_neg n q hq)
    (prewarp_pos fc fs h0 h1)

/-- The first-order digital pole lies strictly inside the unit circle. -/
theorem zPoleReal_sq_lt_one (t pr : ℝ) (ht : 0 < t) (hpr : pr < 0) :
    zPoleReal t pr * zPoleReal t pr < 1 := by
  have hx : pr * t < 0 := mul_neg_of_neg_of_pos hpr ht
  have hden : 0 < 2 - pr * t := by linarith
  rw [zPoleReal, div_mul_div_comm, div_lt_one (by positivity)]
  nlinarith

/-- The first-order digital pole is strictly below `1`. -/
theorem zPoleReal_lt_one (t pr : ℝ) (ht : 0 < t) (hpr : pr < 0) :
    zPoleReal t pr < 1 := by
  have hx : pr * t < 0 := mul_neg_of_neg_of_pos hpr ht
  have hden : 0 < 2 - pr * t := by linarith
  rw [zPoleReal, div_lt_one hden]
  linarith

/-- The second-order digital pole lies strictly inside the unit circle. -/
theorem z1Complex_normSq_lt_one (t pr pi1 : ℝ) (ht : 0 < t) (hpr : pr < 0) :
    (z1Complex t pr pi1).1 * (z1Complex t pr pi1).1 +
      (z1Complex t pr pi1).2 * (z1Complex t pr pi1).2 < 1 := by
  have hx : pr * t < 0 := mul_neg_of_neg_of_pos hpr ht
  have hden : 0 < 2 - pr * t := by linarith
  have hdms : 0 < (2 - pr * t) * (2 - pr * t) + -(pi1 * t) * -(pi1 * t) := by
    nlinarith [mul_self_nonneg (pi1 * t)]
  have h1 : (2 + pr * t) * (2 + pr * t) + pi1 * t * (pi1 * t) <
      (2 - pr * t) * (2 - pr * t) + -(pi1 * t) * -(pi1 * t) := by nlinarith
  have h2 := mul_lt_mul_of_pos_right h1 hdms
  simp only [z1Complex]
  rw [div_mul_div_comm, div_mul_div_comm, div_add_div_same,
    div_lt_one (by nlinarith)]
  nlinarith [h2]

/-- Every digital pole carried by the assembled sections lies strictly inside
the unit circle, provided every analog pole has negative real part. -/
theorem cascadeSections_pole_in_unit_circle (t : ℝ) (ht : 0 < t) :
    ∀ (P : List (ℝ × ℝ)), (∀ p ∈ P, p.1 < 0) →
      ∀ s ∈ cascadeSections t P,
        (sectionPole s).1 * (sectionPole s).1 +
          (sectionPole s).2 * (sectionPole s).2 < 1 := by
  intro P
  induction P using cascadeSections.induct (t := t) with
  | case1 => intro _ s hs; simp [cascadeSections] at hs
  | case2 pr1 pi1 rest h ih =>
      intro hP s hs
      rw [cascadeSections_cons_real t pr1 pi1 rest h] at hs
      rcases List.mem_cons.mp hs with rfl | hs'
      · have hpr : pr1 < 0 := hP (pr1, pi1) (List.mem_cons_self _ _)
        simpa [sectionPole] using zPoleReal_sq_lt_one t pr1 ht hpr
      · exact ih (fun p hp => hP p (List.mem_cons_of_mem _ hp)) s hs'
  | case3 pr1 pi1 h =>
      intro _ s hs
      rw [cascadeSections_last_complex t pr1 pi1 h] at hs
      simp at hs
  | case4 pr1 pi1 h q rest2 ih =>
      intro hP s hs
      rw [cascadeSections_cons_complex t pr1 pi1 q rest2 h] at hs
      rcases List.mem_cons.mp hs with rfl | hs'
      · have hpr : pr1 < 0 := hP (pr1, pi1) (List.mem_cons_self _ _)
        simpa [sectionPole] using z1Complex_normSq_lt_one t pr1 pi1 ht hpr
      · exact ih (fun p hp => hP p (List.mem_cons_of_mem _ (List.mem_cons_of_mem _ hp)))
          s hs'

/-- Every assembled section has a strictly positive denominator coefficient
sum (`Σ a = |1 − z|²` for its digital pole `z`, and `|z| < 1`). -/
theorem cascadeSections_den_sum_pos (t : ℝ) (ht : 0 < t) :
    ∀ (P : List (ℝ × ℝ)), (∀ p ∈ P, p.1 < 0) →
      ∀ s ∈ cascadeSections t P, 0 < (secDen s).sum := by
  intro P hP s hs
  have hmag := cascadeSections_pole_in_unit_circle t ht P hP s hs
  cases s with
  | fo z =>
      simp only [sectionPole] at hmag
      simp only [secDen, List.sum_cons, List.sum_nil]
      nlinarith
  | so z1 =>
      simp only [sectionPole] at hmag
      simp only [secDen, List.sum_cons, List.sum_nil]
      nlinarith [sq_nonneg (1 - z1.1), sq_nonneg z1.2]

/-- Processing an even-length run of complex-classified poles pairs them off
completely, so `cascadeSections` distributes over the append. -/
theorem cascadeSections_append_even (t : ℝ) :
    ∀ (j : ℕ) (ps qs : List (ℝ × ℝ)), ps.length = 2 * j →
      (∀ p ∈ ps, ¬ |p.2| < 1e-10) →
      cascadeSections t (ps ++ qs) = cascadeSections t ps ++ cascadeSections t qs := by
  intro j
  induction j with
  | zero =>
      intro ps qs hl _
      rw [List.length_eq_zero.mp hl]
      simp [cascadeSections]
  | succ j ih =>
      intro ps qs hl hc
      rcases ps with - | ⟨p1, ps⟩
      · simp at hl
      rcases ps with - | ⟨p2, ps'⟩
      · simp at hl; omega
      have hl' : ps'.length = 2 * j := by
        simp only [List.length_cons] at hl; omega
      have h1 : ¬ |p1.2| < 1e-10 := hc p1 (by simp)
      obtain ⟨pr1, pi1⟩ := p1
      rw [List.cons_append, List.cons_append,
        cascadeSections_cons_complex t pr1 pi1 p2 (ps' ++ qs) h1,
        cascadeSections_cons_complex t pr1 pi1 p2 ps' h1,
        ih ps' qs hl' (fun p hp => hc p (by simp [hp])), List.cons_append]

/-- An even-length all-complex run yields exactly `j` second-order sections
(no first-order section) of total degree `2j`. -/
theorem cascadeSections_even_stats (t : ℝ) :
    ∀ (j : ℕ) (ps : List (ℝ × ℝ)), ps.length = 2 * j →
      (∀ p ∈ ps, ¬ |p.2| < 1e-10) →
      (cascadeSections t ps).length = j ∧
      (cascadeSections t ps).countP CascadeSection.isFirstOrder = 0 ∧
      ((cascadeSections t ps).map secDeg).sum = 2 * j := by
  intro j
  induction j with
  | zero =>
      intro ps hl _
      rw [List.length_eq_zero.mp hl]
      simp [cascadeSections]
  | succ j ih =>
      intro ps hl hc
      rcases ps with - | ⟨p1, ps⟩
      · simp at hl
      rcases ps with - | ⟨p2, ps'⟩
      · simp at hl; omega
      have hl' : ps'.length = 2 * j := by
        simp only [List.length_cons] at hl; omega
      have h1 : ¬ |p1.2| < 1e-10 := hc p1 (by simp)
      obtain ⟨pr1, pi1⟩ := p1
      rw [cascadeSections_cons_complex t pr1 pi1 p2 ps' h1]
      obtain ⟨ihl, ihc, ihd⟩ := ih ps' hl' (fun p hp => hc p (by simp [hp]))
      refine ⟨?_, ?_, ?_⟩
      · rw [List.length_cons, ihl]
      · rw [List.countP_cons, ihc]
        simp [CascadeSection.isFirstOrder]
      · rw [List.map_cons, List.sum_cons, ihd, secDeg]
        omega

/-- An odd-length all-complex run standing alone yields `j` second-order
sections and drops its final pole: total degree `2j`, one short. -/
theorem cascadeSections_odd_stats (t : ℝ) :
    ∀ (j : ℕ) (ps : List (ℝ × ℝ)), ps.length = 2 * j + 1 →
      (∀ p ∈ ps, ¬ |p.2| < 1e-10) →
      (cascadeSections t ps).length = j ∧
      (cascadeSections t ps).countP CascadeSection.isFirstOrder = 0 ∧
      ((cascadeSections t ps).map secDeg).sum = 2 * j := by
  intro j
  induction j with
  | zero =>
      intro ps hl hc
      rcases ps with - | ⟨p1, ps⟩
      · simp at hl
      rcases ps with - | ⟨p2, ps'⟩
      · obtain ⟨pr1, pi1⟩ := p1
        rw [cascadeSections_last_complex t pr1 pi1 (hc (pr1, pi1) (by simp))]
        simp
      · simp at hl
  | succ j ih =>
      intro ps hl hc
      rcases ps with - | ⟨p1, ps⟩
      · simp at hl
      rcases ps with - | ⟨p2, ps'⟩
      · simp at hl
      have hl' : ps'.length = 2 * j + 1 := by
        simp only [List.length_cons] at hl; omega
      have h1 : ¬ |p1.2| < 1e-10 := hc p1 (by simp)
      obtain ⟨pr1, pi1⟩ := p1
      rw [cascadeSections_cons_complex t pr1 pi1 p2 ps' h1]
      obtain ⟨ihl, ihc, ihd⟩ := ih ps' hl' (fun p hp => hc p (by simp [hp]))
      refine ⟨?_, ?_, ?_⟩
      · rw [List.length_cons, ihl]
      · rw [List.countP_cons, ihc]
        simp [CascadeSection.isFirstOrder]
      · rw [List.map_cons, List.sum_cons, ihd, secDeg]
        omega

/-- An odd-length all-complex run followed by at least one more pole pairs
its final pole with that next pole: the run contributes `j + 1` second-order
sections (consuming the next pole), and processing continues after it. -/
theorem cascadeSections_odd_append (t : ℝ) :
    ∀ (j : ℕ) (ps : List (ℝ × ℝ)) (q : ℝ × ℝ) (qs : List (ℝ × ℝ)),
      ps.length = 2 * j + 1 →
      (∀ p ∈ ps, ¬ |p.2| < 1e-10) →
      ∃ secs : List CascadeSection,
        cascadeSections t (ps ++ q :: qs) = secs ++ cascadeSections t qs ∧
        secs.length = j + 1 ∧
        secs.countP CascadeSection.isFirstOrder = 0 ∧
        (secs.map secDeg).sum = 2 * (j + 1) := by
  intro j
  induction j with
  | zero =>
      intro ps q qs hl hc
      rcases ps with - | ⟨p1, ps⟩
      · simp at hl
      rcases ps with - | ⟨p2, ps'⟩
      · obtain ⟨pr1, pi1⟩ := p1
        have h1 : ¬ |pi1| < 1e-10 := hc (pr1, pi1) (by simp)
        refine ⟨[CascadeSection.so (z1Complex t pr1 pi1)], ?_, by simp, ?_, ?_⟩
        · rw [List.cons_append, List.nil_append,
            cascadeSections_cons_complex t pr1 pi1 q qs h1]
          simp
        · simp [CascadeSection.isFirstOrder]
        · simp [secDeg]
      · simp at hl
  | succ j ih =>
      intro ps q qs hl hc
      rcases ps with - | ⟨p1, ps⟩
      · simp at hl
      rcases ps with - | ⟨p2, ps'⟩
      · simp at hl
      have hl' : ps'.length = 2 * j + 1 := by
        simp only [List.length_cons] at hl; omega
      have h1 : ¬ |p1.2| < 1e-10 := hc p1 (by simp)
      obtain ⟨pr1, pi1⟩ := p1
      obtain ⟨secs, ihe, ihl, ihc, ihd⟩ := ih ps' q qs hl' (fun p hp => hc p (by simp [hp]))
      refine ⟨CascadeSection.so (z1Complex t pr1 pi1) :: secs, ?_, ?_, ?_, ?_⟩
      · rw [List.cons_append, List.cons_append,
          cascadeSections_cons_complex t pr1 pi1 p2 (ps' ++ q :: qs) h1, ihe,
          List.cons_append]
      · rw [List.length_cons, ihl]
      · rw [List.countP_cons, ihc]
        simp [CascadeSection.isFirstOrder]
      · rw [List.map_cons, List.sum_cons, ihd, secDeg]
        omega

/-- Under exact real arithmetic the middle pole of an odd-order prototype has
angle exactly `π`, hence exactly zero imaginary part. -/
theorem sin_poleAngle_middle (m : ℕ) :
    Real.sin (poleAngle (2 * m + 1) m) = 0 := by
  have h : poleAngle (2 * m + 1) m = Real.pi := by
    rw [poleAngle]
    have hne : (2 * ((2 * m + 1 : ℕ) : ℝ)) ≠ 0 := by positivity
    rw [div_eq_iff hne]
    push_cast
    ring
  rw [h, Real.sin_pi]

/-- The branch-threshold hypothesis: every non-middle pole's scaled imaginary
part clears the classification threshold `1e-10`.  This makes explicit the
numeric-threshold caveat of the pole classifier; it holds for every practical
order and valid cutoff. -/
def BranchOK (n : ℕ) (wc : ℝ) : Prop :=
  ∀ k, k < n → 2 * k + 1 ≠ n → (1e-10 : ℝ) ≤ |Real.sin (poleAngle n k)| * wc

theorem branch_complex_of_ok {n k : ℕ} {wc : ℝ} (hb : BranchOK n wc)
    (hk : k < n) (hmid : 2 * k + 1 ≠ n) :
    ¬ |Real.sin (poleAngle n k) * wc| < 1e-10 := by
  have h := hb k hk hmid
  rw [not_lt, abs_mul]
  calc (1e-10 : ℝ) ≤ |Real.sin (poleAngle n k)| * wc := h
    _ ≤ |Real.sin (poleAngle n k)| * |wc| :=
        mul_le_mul_of_nonneg_left (le_abs_self wc) (abs_nonneg _)

/-- The prototype poles scaled by `wc`, written pointwise. -/
def protoScaled (n : ℕ) (wc : ℝ) : List (ℝ × ℝ) :=
  (List.range n).map (fun k =>
    (Real.cos (poleAngle n k) * wc, Real.sin (poleAngle n k) * wc))

theorem scaledLowpassPoles_eq (n : ℕ) (fc fs : ℝ) :
    scaledLowpassPoles n fc fs = protoScaled n (prewarp fc fs) := by
  rw [scaledLowpassPoles, butterworth_analog_poles, protoScaled, List.map_map]
  rfl

/-- Splitting `range (2m+1)` around its middle index. -/
theorem range_odd_decomp (m : ℕ) :
    List.range (2 * m + 1) =
      List.range m ++ m :: (List.range m).map (fun i => m + 1 + i) := by
  have h1 : 2 * m + 1 = m + (m + 1) := by omega
  rw [h1, List.range_add, List.range_succ_eq_map]
  simp only [List.map_cons, List.map_map, Nat.add_zero]
  congr 1
  congr 1
  refine List.map_congr_left (fun i _ => ?_)
  simp only [Function.comp_apply]
  omega

/-- Every element of `protoScaled` below the middle (or above it) is
classified as complex under `BranchOK`. -/
theorem protoScaled_mem_complex {n : ℕ} {wc : ℝ} (hb : BranchOK n wc)
    {l : List ℕ} (hl : ∀ k ∈ l, k < n ∧ 2 * k + 1 ≠ n) :
    ∀ p ∈ l.map (fun k =>
      (Real.cos (poleAngle n k) * wc, Real.sin (poleAngle n k) * wc)),
      ¬ |p.2| < 1e-10 := by
  intro p hp
  rw [List.mem_map] at hp
  obtain ⟨k, hk, rfl⟩ := hp
  obtain ⟨h1, h2⟩ := hl k hk
  exact branch_complex_of_ok hb h1 h2

/-- Structure of the cascade for even order `n`: exactly `n/2` second-order
sections, no first-order section, total degree `n`. -/
theorem cascade_structure_even (t : ℝ) (n : ℕ) (wc : ℝ) (hn : n % 2 = 0)
    (hb : BranchOK n wc) :
    (cascadeSections t (protoScaled n wc)).length = n / 2 ∧
    (cascadeSections t (protoScaled n wc)).countP CascadeSection.isFirstOrder = 0 ∧
    ((cascadeSections t (protoScaled n wc)).map secDeg).sum = n := by
  have hc : ∀ p ∈ protoScaled n wc, ¬ |p.2| < 1e-10 := by
    rw [protoScaled]
    refine protoScaled_mem_complex hb (fun k hk => ?_)
    rw [List.mem_range] at hk
    exact ⟨hk, by omega⟩
  have hlen : (protoScaled n wc).length = 2 * (n / 2) := by
    rw [protoScaled, List.length_map, List.length_range]; omega
  obtain ⟨h1, h2, h3⟩ := cascadeSections_even_stats t (n / 2) _ hlen hc
  exact ⟨h1, h2, by rw [h3]; omega⟩

/-- Structure of the cascade for order `n = 2m+1` with `m` even: the middle
pole is reached at an even position, so it yields the single first-order
section; `m` second-order sections; total degree `n`. -/
theorem cascade_structure_odd_one (t : ℝ) (m : ℕ) (wc : ℝ) (hm : m % 2 = 0)
    (hb : BranchOK (2 * m + 1) wc) :
    (cascadeSections t (protoScaled (2 * m + 1) wc)).length = m + 1 ∧
    (cascadeSections t (protoScaled (2 * m + 1) wc)).countP
      CascadeSection.isFirstOrder = 1 ∧
    ((cascadeSections t (protoScaled (2 * m + 1) wc)).map secDeg).sum = 2 * m + 1 := by
  rw [protoScaled, range_odd_decomp m, List.map_append, List.map_cons, List.map_map]
  set g := fun k =>
    (Real.cos (poleAngle (2 * m + 1) k) * wc, Real.sin (poleAngle (2 * m + 1) k) * wc)
    with hg
  have hA : ∀ p ∈ (List.range m).map g, ¬ |p.2| < 1e-10 := by
    refine protoScaled_mem_complex hb (fun k hk => ?_)
    rw [List.mem_range] at hk
    exact ⟨by omega, by omega⟩
  have hB : ∀ p ∈ (List.range m).map (g ∘ fun i => m + 1 + i), ¬ |p.2| < 1e-10 := by
    rw [← List.map_map]
    refine protoScaled_mem_complex hb (fun k hk => ?_)
    rw [List.mem_map] at hk
    obtain ⟨i, hi, rfl⟩ := hk
    rw [List.mem_range] at hi
    exact ⟨by omega, by omega⟩
  have hAlen : ((List.range m).map g).length = 2 * (m / 2) := by
    rw [List.length_map, List.length_range]; omega
  have hBlen : ((List.range m).map (g ∘ fun i => m + 1 + i)).length = 2 * (m / 2) := by
    rw [List.length_map, List.length_range]; omega
  rw [cascadeSections_append_even t (m / 2) _ _ hAlen hA]
  have hreal : |Real.sin (poleAngle (2 * m + 1) m) * wc| < 1e-10 := by
    rw [sin_poleAngle_middle m, zero_mul, abs_zero]
    norm_num
  rw [cascadeSections_cons_real t (Real.cos (poleAngle (2 * m + 1) m) * wc)
    (Real.sin (poleAngle (2 * m + 1) m) * wc) _ hreal]
  obtain ⟨hA1, hA2, hA3⟩ := cascadeSections_even_stats t (m / 2) _ hAlen hA
  obtain ⟨hB1, hB2, hB3⟩ := cascadeSections_even_stats t (m / 2) _ hBlen hB
  refine ⟨?_, ?_, ?_⟩
  · rw [List.length_append, List.length_cons, hA1, hB1]; omega
  · rw [List.countP_append, List.countP_cons, hA2, hB2]
    simp [CascadeSection.isFirstOrder]
  · rw [List.map_append, List.sum_append, List.map_cons, List.sum_cons, hA3, hB3, secDeg]
    omega

/-- Structure of the cascade for order `n = 2m+1` with `m` odd: the middle
pole is consumed as the partner of a second-order section and the final pole
is dropped, so there are `m` second-order sections, no first-order section,
and total degree only `2m = n − 1`. -/
theorem cascade_structure_odd_three (t : ℝ) (m : ℕ) (wc : ℝ) (hm : m % 2 = 1)
    (hb : BranchOK (2 * m + 1) wc) :
    (cascadeSections t (protoScaled (2 * m + 1) wc)).length = m ∧
    (cascadeSections t (protoScaled (2 * m + 1) wc)).countP
      CascadeSection.isFirstOrder = 0 ∧
    ((cascadeSections t (protoScaled (2 * m + 1) wc)).map secDeg).sum = 2 * m := by
  rw [protoScaled, range_odd_decomp m, List.map_append, List.map_cons, List.map_map]
  set g := fun k =>
    (Real.cos (poleAngle (2 * m + 1) k) * wc, Real.sin (poleAngle (2 * m + 1) k) * wc)
    with hg
  have hA : ∀ p ∈ (List.range m).map g, ¬ |p.2| < 1e-10 := by
    refine protoScaled_mem_complex hb (fun k hk => ?_)
    rw [List.mem_range] at hk
    exact ⟨by omega, by omega⟩
  have hB : ∀ p ∈ (List.range m).map (g ∘ fun i => m + 1 + i), ¬ |p.2| < 1e-10 := by
    rw [← List.map_map]
    refine protoScaled_mem_complex hb (fun k hk => ?_)
    rw [List.mem_map] at hk
    obtain ⟨i, hi, rfl⟩ := hk
    rw [List.mem_range] at hi
    exact ⟨by omega, by omega⟩
  have hAlen : ((List.range m).map g).length = 2 * (m / 2) + 1 := by
    rw [List.length_map, List.length_range]; omega
  have hBlen : ((List.range m).map (g ∘ fun i => m + 1 + i)).length = 2 * (m / 2) + 1 := by
    rw [List.length_map, List.length_range]; omega
  obtain ⟨secs, he, hl, hc, hd⟩ :=
    cascadeSections_odd_append t (m / 2) ((List.range m).map g) (g m)
      ((List.range m).map (g ∘ fun i => m + 1 + i)) hAlen hA
  rw [he]
  obtain ⟨hB1, hB2, hB3⟩ := cascadeSections_odd_stats t (m / 2) _ hBlen hB
  refine ⟨?_, ?_, ?_⟩
  · rw [List.length_append, hl, hB1]; omega
  · rw [List.countP_append, hc, hB2]
  · rw [List.map_append, List.sum_append, hd, hB3]
    omega

/-- Whether a section is second-order. -/
def CascadeSection.isSecondOrder : CascadeSection → Bool
  | CascadeSection.fo _ => false
  | CascadeSection.so _ => true

/-- Every section is first-order or second-order, so the two counts add up to
the number of sections. -/
theorem countP_fo_so (l : List CascadeSection) :
    l.countP CascadeSection.isFirstOrder + l.countP CascadeSection.isSecondOrder =
      l.length := by
  induction l with
  | nil => simp
  | cons s l ih =>
      rw [List.countP_cons, List.countP_cons, List.length_cons]
      cases s <;> simp [CascadeSection.isFirstOrder, CascadeSection.isSecondOrder] <;> omega

theorem negOdd_length (c : List ℝ) : (negOdd c).length = c.length := by
  simp [negOdd]

theorem negOdd_getD_zero (c : List ℝ) : (negOdd c).getD 0 0 = c.getD 0 0 := by
  rcases c with - | ⟨x, xs⟩
  · simp [negOdd]
  · rw [negOdd, getD_map_range _ (show 0 < (x :: xs).length by simp) 0]
    norm_num

/-- Under the branch hypothesis and excluding `order ≡ 3 (mod 4)`, the
cascade assembles the full degree `order`. -/
theorem cascadeDegreeSum_lowpass (n : ℕ) (fc fs : ℝ) (hn : n % 4 ≠ 3)
    (hb : BranchOK n (prewarp fc fs)) :
    cascadeDegreeSum (1 / fs) (scaledLowpassPoles n fc fs) = n := by
  rw [cascadeDegreeSum, scaledLowpassPoles_eq]
  rcases Nat.even_or_odd n with he | ho
  · exact (cascade_structure_even (1 / fs) n _ (Nat.even_iff.mp he) hb).2.2
  · have h2 : n % 2 = 1 := Nat.odd_iff.mp ho
    obtain ⟨m, rfl, hm2⟩ : ∃ m, n = 2 * m + 1 ∧ m % 2 = 0 :=
      ⟨n / 2, by omega, by omega⟩
    exact (cascade_structure_odd_one (1 / fs) m _ hm2 hb).2.2

/-- Under the branch hypothesis, for `order ≡ 3 (mod 4)` the cascade loses
one degree (the final pole is dropped). -/
theorem cascadeDegreeSum_lowpass_three (n : ℕ) (fc fs : ℝ) (hn : n % 4 = 3)
    (hb : BranchOK n (prewarp fc fs)) :
    cascadeDegreeSum (1 / fs) (scaledLowpassPoles n fc fs) = n - 1 := by
  rw [cascadeDegreeSum, scaledLowpassPoles_eq]
  obtain ⟨m, rfl, hm2⟩ : ∃ m, n = 2 * m + 1 ∧ m % 2 = 1 :=
    ⟨n / 2, by omega, by omega⟩
  rw [(cascade_structure_odd_three (1 / fs) m _ hm2 hb).2.2]
  omega

theorem lowpass_b (n : ℕ) (fc fs : ℝ) :
    (ButterworthFilter.lowpass n fc fs).b =
      (design_butterworth_digital_lowpass n fc fs).1 := rfl

theorem lowpass_a (n : ℕ) (fc fs : ℝ) :
    (ButterworthFilter.lowpass n fc fs).a =
      (design_butterworth_digital_lowpass n fc fs).2 := rfl

theorem highpass_b (n : ℕ) (fc fs : ℝ) :
    (ButterworthFilter.highpass n fc fs).b =
      (design_butterworth_digital_highpass n fc fs).1 := rfl

theorem highpass_a (n : ℕ) (fc fs : ℝ) :
    (ButterworthFilter.highpass n fc fs).a =
      (design_butterworth_digital_highpass n fc fs).2 := rfl

theorem highpass_design_eq (n : ℕ) (fc fs : ℝ) :
    design_butterworth_digital_highpass n fc fs =
      (negOdd (design_butterworth_digital_lowpass n (fs / 2 - fc) fs).1,
       negOdd (design_butterworth_digital_lowpass n (fs / 2 - fc) fs).2) := rfl

theorem prewarp_one_four : prewarp 1 4 = 8 := by
  rw [prewarp, show Real.pi * 1 / 4 = Real.pi / 4 by ring, Real.tan_pi_div_four]
  norm_num

theorem sin_poleAngle_three_zero : Real.sin (poleAngle 3 0) = Real.sqrt 3 / 2 := by
  rw [show poleAngle 3 0 = Real.pi - Real.pi / 3 by rw [poleAngle]; push_cast; ring,
    Real.sin_pi_sub, Real.sin_pi_div_three]

theorem sin_poleAngle_three_two : Real.sin (poleAngle 3 2) = -(Real.sqrt 3 / 2) := by
  rw [show poleAngle 3 2 = Real.pi / 3 + Real.pi by rw [poleAngle]; push_cast; ring,
    Real.sin_add_pi, Real.sin_pi_div_three]

theorem sin_poleAngle_two_zero : Real.sin (poleAngle 2 0) = Real.sqrt 2 / 2 := by
  rw [show poleAngle 2 0 = Real.pi - Real.pi / 4 by rw [poleAngle]; push_cast; ring,
    Real.sin_pi_sub, Real.sin_pi_div_four]

theorem sin_poleAngle_two_one : Real.sin (poleAngle 2 1) = -(Real.sqrt 2 / 2) := by
  rw [show poleAngle 2 1 = Real.pi / 4 + Real.pi by rw [poleAngle]; push_cast; ring,
    Real.sin_add_pi, Real.sin_pi_div_four]

/-- The classification threshold is cleared at order 3 with `fc = 1, fs = 4`. -/
theorem branchOK_three : BranchOK 3 (prewarp 1 4) := by
  intro k hk hmid
  rw [prewarp_one_four]
  have h3 : (1 : ℝ) ≤ Real.sqrt 3 := Real.one_le_sqrt.mpr (by norm_num)
  interval_cases k
  · rw [sin_poleAngle_three_zero, abs_of_nonneg (by positivity)]
    nlinarith
  · omega
  · rw [sin_poleAngle_three_two, abs_neg, abs_of_nonneg (by positivity)]
    nlinarith

/-- The classification threshold is cleared at order 2 with `fc = 1, fs = 4`. -/
theorem branchOK_two : BranchOK 2 (prewarp 1 4) := by
  intro k hk hmid
  rw [prewarp_one_four]
  have h2 : (1 : ℝ) ≤ Real.sqrt 2 := Real.one_le_sqrt.mpr (by norm_num)
  interval_cases k
  · rw [sin_poleAngle_two_zero, abs_of_nonneg (by positivity)]
    nlinarith
  · rw [sin_poleAngle_two_one, abs_neg, abs_of_nonneg (by positivity)]
    nlinarith

/-- C1 (amended): for every order with `order % 4 ≠ 3` (in particular every
even order and every order `≡ 1 (mod 4)`), and under the explicit
pole-classification threshold hypothesis, both designs give
`len(b) = len(a) = order + 1` and `a[0] = 1`.  (For `order % 4 = 3` the code
drops the final pole and produces vectors of length `order`; see the
counterexample.) -/
theorem C1_amended_lengths_and_a0 (n : ℕ) (fc fs : ℝ) (hn : n % 4 ≠ 3)
    (hb : BranchOK n (prewarp fc fs)) (hb2 : BranchOK n (prewarp (fs / 2 - fc) fs)) :
    (ButterworthFilter.lowpass n fc fs).b.length = n + 1 ∧
    (ButterworthFilter.lowpass n fc fs).a.length = n + 1 ∧
    (ButterworthFilter.lowpass n fc fs).a.getD 0 0 = 1 ∧
    (ButterworthFilter.highpass n fc fs).b.length = n + 1 ∧
    (ButterworthFilter.highpass n fc fs).a.length = n + 1 ∧
    (ButterworthFilter.highpass n fc fs).a.getD 0 0 = 1 := by
  have hlp := cascadeDegreeSum_lowpass n fc fs hn hb
  have hhp := cascadeDegreeSum_lowpass n (fs / 2 - fc) fs hn hb2
  refine ⟨?_, ?_, ?_, ?_, ?_, ?_⟩
  · rw [lowpass_b, design_butterworth_digital_lowpass, bilinear_b_length, hlp]
    omega
  · rw [lowpass_a, design_butterworth_digital_lowpass, bilinear_a_length, hlp]
    omega
  · rw [lowpass_a, design_butterworth_digital_lowpass, bilinear_a_headD]
  · rw [highpass_b, highpass_design_eq, negOdd_length,
      design_butterworth_digital_lowpass, bilinear_b_length, hhp]
    omega
  · rw [highpass_a, highpass_design_eq, negOdd_length,
      design_butterworth_digital_lowpass, bilinear_a_length, hhp]
    omega
  · rw [highpass_a, highpass_design_eq, negOdd_getD_zero,
      design_butterworth_digital_lowpass, bilinear_a_headD]

/-- Witness for the amended C1 at `order = 2, fc = 1, fs = 4`. -/
theorem C1_amended_witness :
    (ButterworthFilter.lowpass 2 1 4).b.length = 3 ∧
    (ButterworthFilter.lowpass 2 1 4).a.length = 3 ∧
    (ButterworthFilter.lowpass 2 1 4).a.getD 0 0 = 1 ∧
    (ButterworthFilter.highpass 2 1 4).b.length = 3 ∧
    (ButterworthFilter.highpass 2 1 4).a.length = 3 ∧
    (ButterworthFilter.highpass 2 1 4).a.getD 0 0 = 1 := by
  have hb2 : BranchOK 2 (prewarp ((4 : ℝ) / 2 - 1) 4) := by
    have h14 : (4 : ℝ) / 2 - 1 = 1 := by norm_num
    rw [h14]
    exact branchOK_two
  simpa using C1_amended_lengths_and_a0 2 1 4 (by norm_num) branchOK_two hb2

/-- C1 counterexample: at `order = 3` (valid parameters `fc = 1, fs = 4`) the
produced coefficient vectors have length `3`, not `order + 1 = 4`: the middle
(real) pole is consumed as the partner of a biquad and the final pole is
dropped. -/
theorem C1_counterexample :
    (ButterworthFilter.lowpass 3 1 4).b.length = 3 ∧
    (ButterworthFilter.lowpass 3 1 4).a.length = 3 := by
  have hdeg : cascadeDegreeSum (1 / 4) (scaledLowpassPoles 3 1 4) = 2 := by
    have h := cascadeDegreeSum_lowpass_three 3 1 4 (by norm_num) branchOK_three
    simpa using h
  constructor
  · rw [lowpass_b, design_butterworth_digital_lowpass, bilinear_b_length, hdeg]
  · rw [lowpass_a, design_butterworth_digital_lowpass, bilinear_a_length, hdeg]

/-- C2 (amended): the cascade step combines exactly the sections of
`cascadeSections` by convolution; under the classification-threshold
hypothesis the section counts are: even order — `order/2` second-order
sections and no first-order section (as the spec says); order `≡ 1 (mod 4)` —
one first-order plus `(order−1)/2` second-order sections (as the spec says);
order `≡ 3 (mod 4)` — *no* first-order section and `(order−1)/2` second-order
sections, the final pole being dropped (contrary to the spec's odd-order
clause). -/
theorem C2_amended_sections (n : ℕ) (fc fs : ℝ) (hb : BranchOK n (prewarp fc fs)) :
    (cascadeLoop (1 / fs) (scaledLowpassPoles n fc fs) [1] [1] =
      ((cascadeSections (1 / fs) (scaledLowpassPoles n fc fs)).foldl
         (fun acc s => convolve acc (secNum s)) [1],
       (cascadeSections (1 / fs) (scaledLowpassPoles n fc fs)).foldl
         (fun acc s => convolve acc (secDen s)) [1])) ∧
    (n % 2 = 0 →
      (cascadeSections (1 / fs) (scaledLowpassPoles n fc fs)).countP
        CascadeSection.isFirstOrder = 0 ∧
      (cascadeSections (1 / fs) (scaledLowpassPoles n fc fs)).countP
        CascadeSection.isSecondOrder = n / 2) ∧
    (n % 4 = 1 →
      (cascadeSections (1 / fs) (scaledLowpassPoles n fc fs)).countP
        CascadeSection.isFirstOrder = 1 ∧
      (cascadeSections (1 / fs) (scaledLowpassPoles n fc fs)).countP
        CascadeSection.isSecondOrder = (n - 1) / 2) ∧
    (n % 4 = 3 →
      (cascadeSections (1 / fs) (scaledLowpassPoles n fc fs)).countP
        CascadeSection.isFirstOrder = 0 ∧
      (cascadeSections (1 / fs) (scaledLowpassPoles n fc fs)).countP
        CascadeSection.isSecondOrder = (n - 1) / 2) := by
  refine ⟨cascadeLoop_eq_fold _ _ [1] [1], ?_, ?_, ?_⟩
  · intro h2
    rw [scaledLowpassPoles_eq]
    obtain ⟨hl, hfo, -⟩ := cascade_structure_even (1 / fs) n _ h2 hb
    have hcount := countP_fo_so (cascadeSections (1 / fs) (protoScaled n (prewarp fc fs)))
    refine ⟨hfo, ?_⟩
    omega
  · intro h4
    rw [scaledLowpassPoles_eq]
    obtain ⟨m, rfl, hm2⟩ : ∃ m, n = 2 * m + 1 ∧ m % 2 = 0 :=
      ⟨n / 2, by omega, by omega⟩
    obtain ⟨hl, hfo, -⟩ := cascade_structure_odd_one (1 / fs) m _ hm2 hb
    have hcount := countP_fo_so
      (cascadeSections (1 / fs) (protoScaled (2 * m + 1) (prewarp fc fs)))
    refine ⟨hfo, ?_⟩
    omega
  · intro h4
    rw [scaledLowpassPoles_eq]
    obtain ⟨m, rfl, hm2⟩ : ∃ m, n = 2 * m + 1 ∧ m % 2 = 1 :=
      ⟨n / 2, by omega, by omega⟩
    obtain ⟨hl, hfo, -⟩ := cascade_structure_odd_three (1 / fs) m _ hm2 hb
    have hcount := countP_fo_so
      (cascadeSections (1 / fs) (protoScaled (2 * m + 1) (prewarp fc fs)))
    refine ⟨hfo, ?_⟩
    omega

/-- Witness for the amended C2 at `order = 2, fc = 1, fs = 4`. -/
theorem C2_amended_witness :
    (cascadeLoop (1 / 4) (scaledLowpassPoles 2 1 4) [1] [1] =
      ((cascadeSections (1 / 4) (scaledLowpassPoles 2 1 4)).foldl
         (fun acc s => convolve acc (secNum s)) [1],
       (cascadeSections (1 / 4) (scaledLowpassPoles 2 1 4)).foldl
         (fun acc s => convolve acc (secDen s)) [1])) ∧
    (cascadeSections (1 / 4) (scaledLowpassPoles 2 1 4)).countP
      CascadeSection.isFirstOrder = 0 ∧
    (cascadeSections (1 / 4) (scaledLowpassPoles 2 1 4)).countP
      CascadeSection.isSecondOrder = 1 := by
  obtain ⟨h1, h2, -, -⟩ := C2_amended_sections 2 1 4 branchOK_two
  obtain ⟨h3, h4⟩ := h2 (by norm_num)
  exact ⟨h1, h3, h4⟩

/-- C2 counterexample: at `order = 3` (`fc = 1, fs = 4`) the cascade contains
*no* first-order section, though the spec's odd-order clause requires exactly
one. -/
theorem C2_counterexample :
    (cascadeSections (1 / 4) (scaledLowpassPoles 3 1 4)).countP
      CascadeSection.isFirstOrder = 0 := by
  have hb : BranchOK (2 * 1 + 1) (prewarp 1 4) := by
    have h : (2 * 1 + 1 : ℕ) = 3 := by norm_num
    rw [h]
    exact branchOK_three
  have h := cascade_structure_odd_three (1 / 4) 1 (prewarp 1 4) (by norm_num) hb
  rw [scaledLowpassPoles_eq]
  simpa using h.2.1

theorem design_lowpass_zero (fc fs : ℝ) :
    design_butterworth_digital_lowpass 0 fc fs = ([1], [1]) := by
  rw [design_butterworth_digital_lowpass]
  have h : scaledLowpassPoles 0 fc fs = [] := by
    rw [scaledLowpassPoles, butterworth_analog_poles]
    simp
  rw [h, bilinear_reduce]
  have h2 : cascadeLoop (1 / fs) [] [1] [1] = ([1], [1]) := rfl
  rw [h2]
  norm_num

/-- C7 (amended): the design functions perform no parameter validation and
cannot fail: for *every* input — including `order < 1`, cutoffs outside
`(0, fs/2)`, and non-positive sample rates — a complete filter is produced,
with `len(b) = len(a)` and leading denominator coefficient `1`.  No
`InvalidParameter` error exists anywhere in the code. -/
theorem C7_amended_no_validation (n : ℕ) (fc fs : ℝ) :
    (ButterworthFilter.lowpass n fc fs).b.length =
      (ButterworthFilter.lowpass n fc fs).a.length ∧
    (ButterworthFilter.lowpass n fc fs).a.getD 0 0 = 1 ∧
    (ButterworthFilter.highpass n fc fs).b.length =
      (ButterworthFilter.highpass n fc fs).a.length ∧
    (ButterworthFilter.highpass n fc fs).a.getD 0 0 = 1 := by
  refine ⟨?_, ?_, ?_, ?_⟩
  · rw [lowpass_b, lowpass_a, design_butterworth_digital_lowpass,
      bilinear_b_length, bilinear_a_length]
  · rw [lowpass_a, design_butterworth_digital_lowpass, bilinear_a_headD]
  · rw [highpass_b, highpass_a, highpass_design_eq, negOdd_length, negOdd_length,
      design_butterworth_digital_lowpass, bilinear_b_length, bilinear_a_length]
  · rw [highpass_a, highpass_design_eq, negOdd_getD_zero,
      design_butterworth_digital_lowpass, bilinear_a_headD]

/-- C7 counterexample: calling the low-pass constructor with the invalid
order `0` (the claim requires a failure before any computation) instead
returns a complete filter, the identity `b = a = [1]`. -/
theorem C7_counterexample :
    (ButterworthFilter.lowpass 0 1 4).b = [1] ∧
    (ButterworthFilter.lowpass 0 1 4).a = [1] := by
  rw [lowpass_b, lowpass_a, design_lowpass_zero]
  exact ⟨rfl, rfl⟩

/-- C10: order `0` does not fail — the pole list is empty and the cascade of
zero sections normalizes to the identity filter `b = a = [1.0]`, for every
cutoff and sample rate. -/
theorem C10_order_zero_identity (fc fs : ℝ) :
    butterworth_analog_poles 0 = [] ∧
    (ButterworthFilter.lowpass 0 fc fs).b = [1] ∧
    (ButterworthFilter.lowpass 0 fc fs).a = [1] := by
  refine ⟨by rw [butterworth_analog_poles]; simp, ?_, ?_⟩
  · rw [lowpass_b, design_lowpass_zero]
  · rw [lowpass_a, design_lowpass_zero]

/-- C3: for every valid triple (`order ≥ 1`, `0 < fc < fs/2`), every
bilinear-transformed digital pole used when cascading the low-pass design has
magnitude strictly less than one. -/
theorem C3_poles_inside_unit_circle (n : ℕ) (fc fs : ℝ) (hn : 1 ≤ n)
    (h0 : 0 < fc) (h1 : fc < fs / 2) :
    ∀ s ∈ cascadeSections (1 / fs) (scaledLowpassPoles n fc fs),
      Complex.abs ⟨(sectionPole s).1, (sectionPole s).2⟩ < 1 := by
  intro s hs
  have hfs : 0 < fs := by linarith
  have ht : 0 < 1 / fs := by positivity
  have hP := scaledLowpassPoles_re_neg n fc fs h0 h1
  have h := cascadeSections_pole_in_unit_circle (1 / fs) ht _ hP s hs
  rw [Complex.abs_apply, Complex.normSq_mk, Real.sqrt_lt' one_pos, one_pow]
  calc (sectionPole s).1 * (sectionPole s).1 + (sectionPole s).2 * (sectionPole s).2
      < 1 := h

/-- Witness for C3 at `order = 2, fc = 1, fs = 4`. -/
theorem C3_witness :
    List.Forall (fun s => Complex.abs ⟨(sectionPole s).1, (sectionPole s).2⟩ < 1)
      (cascadeSections (1 / 4) (scaledLowpassPoles 2 1 4)) := by
  rw [List.forall_iff_forall_mem]
  exact C3_poles_inside_unit_circle 2 1 4 (by norm_num) (by norm_num) (by norm_num)

/-- The frequency response at `ω = 0` is the ratio of coefficient sums. -/
theorem frequency_response_at_zero (F : ButterworthFilter) :
    frequency_response_at_omega F 0 = ((F.b.sum : ℝ) : ℂ) / ((F.a.sum : ℝ) : ℂ) := by
  have hterm : ∀ k : ℕ,
      (⟨Real.cos (-(k : ℝ) * 0), Real.sin (-(k : ℝ) * 0)⟩ : ℂ) = 1 := by
    intro k
    apply Complex.ext <;> simp
  simp only [frequency_response_at_omega, hterm, mul_one]
  rw [list_sum_getD F.b, list_sum_getD F.a]
  push_cast
  rfl

/-- The denominator coefficient sum of a valid low-pass design is positive. -/
theorem design_asum_pos (n : ℕ) (fc fs : ℝ) (h0 : 0 < fc) (h1 : fc < fs / 2) :
    0 < (design_butterworth_digital_lowpass n fc fs).2.sum := by
  have hfs : 0 < fs := by linarith
  rw [design_butterworth_digital_lowpass, bilinear_reduce, cascadeLoop_eq_fold,
    fold_convolve_sum secDen _ [1], List.sum_singleton, one_mul]
  refine List.prod_pos (fun x hx => ?_)
  rw [List.mem_map] at hx
  obtain ⟨s, hs, rfl⟩ := hx
  exact cascadeSections_den_sum_pos (1 / fs) (by positivity) _
    (scaledLowpassPoles_re_neg n fc fs h0 h1) s hs

/-- C4: the normalization divides by the leading denominator coefficient
(which is exactly `1` here) and rescales the numerator by
`gain = sum(a)/sum(b)`; consequently the coefficient sums agree and the
magnitude response at DC equals `1` (within `1e-9` trivially — it is exact in
real arithmetic). -/
theorem C4_dc_gain_unity (n : ℕ) (fc fs : ℝ) (h0 : 0 < fc) (h1 : fc < fs / 2) :
    (design_butterworth_digital_lowpass n fc fs).1.sum =
      (design_butterworth_digital_lowpass n fc fs).2.sum ∧
    0 < (design_butterworth_digital_lowpass n fc fs).2.sum ∧
    |Complex.abs (frequency_response_at_omega (ButterworthFilter.lowpass n fc fs) 0) - 1|
      ≤ 1e-9 := by
  have heq : (design_butterworth_digital_lowpass n fc fs).1.sum =
      (design_butterworth_digital_lowpass n fc fs).2.sum := by
    rw [design_butterworth_digital_lowpass]
    exact bilinear_sum_eq _ fs
  have hpos := design_asum_pos n fc fs h0 h1
  refine ⟨heq, hpos, ?_⟩
  have h3 : frequency_response_at_omega (ButterworthFilter.lowpass n fc fs) 0 = 1 := by
    rw [frequency_response_at_zero, lowpass_b, lowpass_a, heq, div_self]
    exact_mod_cast ne_of_gt hpos
  rw [h3]
  simp only [map_one]
  norm_num

/-- Witness for C4 at `order = 2, fc = 1, fs = 4`. -/
theorem C4_witness :
    (design_butterworth_digital_lowpass 2 1 4).1.sum =
      (design_butterworth_digital_lowpass 2 1 4).2.sum ∧
    0 < (design_butterworth_digital_lowpass 2 1 4).2.sum ∧
    |Complex.abs (frequency_response_at_omega (ButterworthFilter.lowpass 2 1 4) 0) - 1|
      ≤ 1e-9 :=
  C4_dc_gain_unity 2 1 4 (by norm_num) (by norm_num)

/-- C6: `butterworth_analog_poles` returns exactly `order` poles, the `k`-th
being `(cos θ_k, sin θ_k)` with `θ_k = π(2k + order + 1)/(2·order)`, and every
pole has strictly negative real part. -/
theorem C6_analog_poles (n : ℕ) (hn : 1 ≤ n) :
    (butterworth_analog_poles n).length = n ∧
    (∀ k, k < n → (butterworth_analog_poles n).getD k (0, 0) =
      (Real.cos (poleAngle n k), Real.sin (poleAngle n k))) ∧
    (∀ p ∈ butterworth_analog_poles n, p.1 < 0) := by
  refine ⟨?_, ?_, butterworth_analog_poles_re_neg n⟩
  · rw [butterworth_analog_poles]
    simp
  · intro k hk
    rw [butterworth_analog_poles, getD_map_range _ hk]

/-- Witness for C6 at `order = 1`. -/
theorem C6_witness :
    (butterworth_analog_poles 1).length = 1 ∧
    (∀ k, k < 1 → (butterworth_analog_poles 1).getD k (0, 0) =
      (Real.cos (poleAngle 1 k), Real.sin (poleAngle 1 k))) ∧
    (∀ p ∈ butterworth_analog_poles 1, p.1 < 0) :=
  C6_analog_poles 1 (by norm_num)

/-- Evaluation of a real coefficient list as a polynomial in a complex
variable: `Σ_i c[i]·z^i` (the transfer-function numerator/denominator). -/
def evalPoly (c : List ℝ) (z : ℂ) : ℂ :=
  ∑ i in Finset.range c.length, ((c.getD i 0 : ℝ) : ℂ) * z ^ i

/-- Negating the odd-indexed coefficients substitutes `−z` for `z`. -/
theorem evalPoly_negOdd (c : List ℝ) (z : ℂ) :
    evalPoly (negOdd c) z = evalPoly c (-z) := by
  rw [evalPoly, evalPoly, negOdd_length]
  refine Finset.sum_congr rfl (fun i hi => ?_)
  rw [Finset.mem_range] at hi
  rw [negOdd, getD_map_range _ hi]
  rcases Nat.even_or_odd i with he | ho
  · have h2 : i % 2 = 0 := Nat.even_iff.mp he
    rw [if_neg (by omega : ¬ i % 2 = 1), he.neg_pow]
  · rw [if_pos (Nat.odd_iff.mp ho), ho.neg_pow]
    push_cast
    ring

/-- C5: the high-pass design is exactly the low-pass design at the mirrored
cutoff `fs/2 − fc` with every odd-indexed coefficient of `b` and `a` negated;
the negation realizes the substitution `H_HP(z) = H_LP(−z)` at the polynomial
level. -/
theorem C5_highpass_mirror_negation (n : ℕ) (fc fs : ℝ) :
    design_butterworth_digital_highpass n fc fs =
      (negOdd (design_butterworth_digital_lowpass n (fs / 2 - fc) fs).1,
       negOdd (design_butterworth_digital_lowpass n (fs / 2 - fc) fs).2) ∧
    (∀ z : ℂ,
      evalPoly (design_butterworth_digital_highpass n fc fs).1 z =
        evalPoly (design_butterworth_digital_lowpass n (fs / 2 - fc) fs).1 (-z)) ∧
    (∀ z : ℂ,
      evalPoly (design_butterworth_digital_highpass n fc fs).2 z =
        evalPoly (design_butterworth_digital_lowpass n (fs / 2 - fc) fs).2 (-z)) := by
  refine ⟨highpass_design_eq n fc fs, fun z => ?_, fun z => ?_⟩
  · rw [highpass_design_eq]
    exact evalPoly_negOdd _ z
  · rw [highpass_design_eq]
    exact evalPoly_negOdd _ z

/-- C8 (amended): `compute` returns exactly `numPoints/2 + 1` samples with
`k`-th frequency `k·fs/numPoints`, strictly increasing (for `fs > 0`),
starting at `0`; the final frequency is `(numPoints/2)·fs/numPoints`, which
equals `fs/2` exactly when `numPoints` is even (for odd `numPoints` the grid
stops short of Nyquist, contrary to the original claim). -/
theorem C8_amended_response_grid (F : ButterworthFilter) (fs : ℝ) (np : ℕ)
    (hnp : 1 ≤ np) (hfs : 0 < fs) :
    (FilterResponse.compute F fs np).frequencies.length = np / 2 + 1 ∧
    (FilterResponse.compute F fs np).magnitude.length = np / 2 + 1 ∧
    (FilterResponse.compute F fs np).phase.length = np / 2 + 1 ∧
    (FilterResponse.compute F fs np).complex_response.length = np / 2 + 1 ∧
    (∀ k, k < np / 2 + 1 →
      (FilterResponse.compute F fs np).frequencies.getD k 0 = (k : ℝ) * fs / np) ∧
    (FilterResponse.compute F fs np).frequencies.Pairwise (· < ·) ∧
    (FilterResponse.compute F fs np).frequencies.getD 0 0 = 0 ∧
    (np % 2 = 0 →
      (FilterResponse.compute F fs np).frequencies.getD (np / 2) 0 = fs / 2) := by
  have hnp' : 0 < (np : ℝ) := by exact_mod_cast hnp
  refine ⟨by simp [FilterResponse.compute], by simp [FilterResponse.compute],
    by simp [FilterResponse.compute], by simp [FilterResponse.compute],
    ?_, ?_, ?_, ?_⟩
  · intro k hk
    simp only [FilterResponse.compute]
    exact getD_map_range _ hk 0
  · simp only [FilterResponse.compute]
    rw [List.pairwise_map]
    have hr : (List.range (np / 2 + 1)).Pairwise (· < ·) := List.pairwise_lt_range _
    refine hr.imp (fun {a b} hab => ?_)
    have hab' : (a : ℝ) < (b : ℝ) := by exact_mod_cast hab
    rw [div_lt_div_iff hnp' hnp']
    exact mul_lt_mul_of_pos_right (mul_lt_mul_of_pos_right hab' hfs) hnp'
  · simp only [FilterResponse.compute]
    rw [getD_map_range _ (by omega : 0 < np / 2 + 1) 0]
    simp
  · intro hev
    simp only [FilterResponse.compute]
    rw [getD_map_range _ (by omega : np / 2 < np / 2 + 1) 0]
    obtain ⟨m, rfl⟩ : ∃ m, np = 2 * m := ⟨np / 2, by omega⟩
    have hm : 0 < m := by omega
    have hm' : (0 : ℝ) < (m : ℝ) := by exact_mod_cast hm
    rw [show (2 * m) / 2 = m by omega]
    push_cast
    field_simp
    ring

/-- Witness for the amended C8 at `numPoints = 4, fs = 2`. -/
theorem C8_amended_witness :
    (FilterResponse.compute (ButterworthFilter.lowpass 1 1 4) 2 4).frequencies.length =
      4 / 2 + 1 ∧
    (FilterResponse.compute (ButterworthFilter.lowpass 1 1 4) 2 4).magnitude.length =
      4 / 2 + 1 ∧
    (FilterResponse.compute (ButterworthFilter.lowpass 1 1 4) 2 4).phase.length =
      4 / 2 + 1 ∧
    (FilterResponse.compute (ButterworthFilter.lowpass 1 1 4) 2 4).complex_response.length =
      4 / 2 + 1 ∧
    (∀ k, k < 4 / 2 + 1 →
      (FilterResponse.compute (ButterworthFilter.lowpass 1 1 4) 2 4).frequencies.getD k 0 =
        (k : ℝ) * 2 / (4 : ℕ)) ∧
    (FilterResponse.compute (ButterworthFilter.lowpass 1 1 4) 2 4).frequencies.Pairwise
      (· < ·) ∧
    (FilterResponse.compute (ButterworthFilter.lowpass 1 1 4) 2 4).frequencies.getD 0 0 =
      0 ∧
    ((4 : ℕ) % 2 = 0 →
      (FilterResponse.compute (ButterworthFilter.lowpass 1 1 4) 2 4).frequencies.getD
        (4 / 2) 0 = 2 / 2) :=
  C8_amended_response_grid (ButterworthFilter.lowpass 1 1 4) 2 4 (by norm_num) (by norm_num)

/-- C8 counterexample: with `numPoints = 3` (odd) and `fs = 2` the final
sample sits at frequency `2/3`, not at `fs/2 = 1`: the grid does not end at
Nyquist for odd `numPoints`. -/
theorem C8_counterexample :
    (FilterResponse.compute (ButterworthFilter.lowpass 1 1 4) 2 3).frequencies.length = 2 ∧
    (FilterResponse.compute (ButterworthFilter.lowpass 1 1 4) 2 3).frequencies.getD 1 0 =
      2 / 3 ∧
    ((2 : ℝ) / 3) ≠ 2 / 2 := by
  refine ⟨by simp [FilterResponse.compute], ?_, by norm_num⟩
  simp only [FilterResponse.compute]
  rw [getD_map_range _ (by omega : 1 < 3 / 2 + 1) 0]
  norm_num

/-- Invariant of the strict-improvement fold (`error < best_error` keeps the
new frequency): the final state is either the initial one or records a
scanned frequency together with its error, its error never exceeds the
initial one, and it is at most the error of every scanned frequency. -/
theorem scanUpdate_foldl_spec (err : ℝ → ℝ) :
    ∀ (l : List ℝ) (init : ℝ × WithTop ℝ),
      (l.foldl (scanUpdate err) init = init ∨
        ((l.foldl (scanUpdate err) init).1 ∈ l ∧
         (l.foldl (scanUpdate err) init).2 =
           ((err (l.foldl (scanUpdate err) init).1 : ℝ) : WithTop ℝ))) ∧
      (l.foldl (scanUpdate err) init).2 ≤ init.2 ∧
      ∀ f ∈ l, (l.foldl (scanUpdate err) init).2 ≤ ((err f : ℝ) : WithTop ℝ) := by
  intro l
  induction l with
  | nil =>
      intro init
      exact ⟨Or.inl rfl, le_refl _, by simp⟩
  | cons x xs ih =>
      intro init
      rw [List.foldl_cons]
      by_cases hx : ((err x : ℝ) : WithTop ℝ) < init.2
      · have hstep : scanUpdate err init x = (x, ((err x : ℝ) : WithTop ℝ)) := by
          rw [scanUpdate, if_pos hx]
        rw [hstep]
        obtain ⟨h1, h2, h3⟩ := ih (x, ((err x : ℝ) : WithTop ℝ))
        refine ⟨?_, le_trans h2 (le_of_lt hx), ?_⟩
        · rcases h1 with he | ⟨hm, hv⟩
          · right
            rw [he]
            exact ⟨List.mem_cons_self _ _, rfl⟩
          · right
            exact ⟨List.mem_cons_of_mem _ hm, hv⟩
        · intro f hf
          rcases List.mem_cons.mp hf with rfl | hf'
          · exact h2
          · exact h3 f hf'
      · have hstep : scanUpdate err init x = init := by
          rw [scanUpdate, if_neg hx]
        rw [hstep]
        obtain ⟨h1, h2, h3⟩ := ih init
        refine ⟨?_, h2, ?_⟩
        · rcases h1 with he | ⟨hm, hv⟩
          · exact Or.inl he
          · exact Or.inr ⟨List.mem_cons_of_mem _ hm, hv⟩
        · intro f hf
          rcases List.mem_cons.mp hf with rfl | hf'
          · exact le_trans h2 (not_lt.mp hx)
          · exact h3 f hf'

/-- The coarse scan selects one of the 10000 coarse frequencies and records
its error, which is minimal among all coarse frequencies. -/
theorem coarseScan_spec (F : ButterworthFilter) (fs : ℝ) :
    (coarseScan F fs).1 ∈ coarseFreqList fs ∧
    (coarseScan F fs).2 = ((cutoffErr F fs (coarseScan F fs).1 : ℝ) : WithTop ℝ) ∧
    ∀ f ∈ coarseFreqList fs,
      (coarseScan F fs).2 ≤ ((cutoffErr F fs f : ℝ) : WithTop ℝ) := by
  obtain ⟨h1, -, h3⟩ :=
    scanUpdate_foldl_spec (cutoffErr F fs) (coarseFreqList fs) (0, ⊤)
  have hmem : ((0 : ℕ) : ℝ) * (fs / 2) / 10000 ∈ coarseFreqList fs := by
    rw [coarseFreqList]
    exact List.mem_map_of_mem _ (List.mem_range.mpr (by norm_num))
  have hlt := h3 _ hmem
  rcases h1 with he | ⟨hm, hv⟩
  · exfalso
    rw [he] at hlt
    simp at hlt
  · exact ⟨hm, hv, h3⟩

/-- The state of the fine loop before step `i`: the coarse state followed by
`i` applications of `fineStep`. -/
def fineState (filter : ButterworthFilter) (sample_rate : ℝ) : ℕ → ℝ × WithTop ℝ
  | 0 => coarseScan filter sample_rate
  | i + 1 => fineStep filter sample_rate (fineState filter sample_rate i) i

/-- The candidate frequency the fine loop examines at step `i`, computed from
the running best frequency as the source does. -/
def fineCandidate (filter : ButterworthFilter) (sample_rate : ℝ) (i : ℕ) : ℝ :=
  (fineState filter sample_rate i).1 - (sample_rate / 2 / 10000) / 2 +
    (i : ℝ) * (sample_rate / 2 / 10000) / 1000

/-- The fine fold is the iterated `fineStep` state. -/
theorem foldl_fineStep_eq_fineState (F : ButterworthFilter) (fs : ℝ) :
    ∀ n, (List.range n).foldl (fineStep F fs) (coarseScan F fs) = fineState F fs n := by
  intro n
  induction n with
  | zero =>
      rw [List.range_zero, List.foldl_nil]
      rfl
  | succ n ih =>
      rw [List.range_succ, List.foldl_append, ih]
      rfl

/-- Unfolding of `fineStep` in terms of `fineCandidate`. -/
theorem fineState_succ (F : ButterworthFilter) (fs : ℝ) (i : ℕ) :
    fineState F fs (i + 1) =
      if fineCandidate F fs i < 0 ∨ fs / 2 < fineCandidate F fs i
      then fineState F fs i
      else scanUpdate (cutoffErr F fs) (fineState F fs i) (fineCandidate F fs i) := by
  rw [fineState]
  simp only [fineStep, fineCandidate]

/-- Every fine state records the error of its frequency. -/
theorem fineState_snd_eq (F : ButterworthFilter) (fs : ℝ) :
    ∀ i, (fineState F fs i).2 =
      ((cutoffErr F fs (fineState F fs i).1 : ℝ) : WithTop ℝ) := by
  intro i
  induction i with
  | zero => exact (coarseScan_spec F fs).2.1
  | succ i ih =>
      rw [fineState_succ]
      by_cases hg : fineCandidate F fs i < 0 ∨ fs / 2 < fineCandidate F fs i
      · rw [if_pos hg]
        exact ih
      · rw [if_neg hg, scanUpdate]
        by_cases hx : ((cutoffErr F fs (fineCandidate F fs i) : ℝ) : WithTop ℝ) <
            (fineState F fs i).2
        · rw [if_pos hx]
        · rw [if_neg hx]
          exact ih

/-- The recorded error never increases along the fine loop. -/
theorem fineState_snd_mono_succ (F : ButterworthFilter) (fs : ℝ) (i : ℕ) :
    (fineState F fs (i + 1)).2 ≤ (fineState F fs i).2 := by
  rw [fineState_succ]
  by_cases hg : fineCandidate F fs i < 0 ∨ fs / 2 < fineCandidate F fs i
  · rw [if_pos hg]
  · rw [if_neg hg, scanUpdate]
    by_cases hx : ((cutoffErr F fs (fineCandidate F fs i) : ℝ) : WithTop ℝ) <
        (fineState F fs i).2
    · rw [if_pos hx]
      exact le_of_lt hx
    · rw [if_neg hx]

theorem fineState_snd_mono (F : ButterworthFilter) (fs : ℝ) :
    ∀ i j, i ≤ j → (fineState F fs j).2 ≤ (fineState F fs i).2 := by
  intro i j hij
  induction j with
  | zero =>
      rw [Nat.le_zero.mp hij]
  | succ j ih =>
      rcases Nat.lt_or_ge i (j + 1) with h | h
      · exact le_trans (fineState_snd_mono_succ F fs j) (ih (by omega))
      · rw [Nat.le_antisymm hij h]

/-- After step `i`, the recorded error is at most the error of the in-range
candidate examined at step `i`. -/
theorem fineState_snd_le_candidate (F : ButterworthFilter) (fs : ℝ) (i : ℕ)
    (h0 : 0 ≤ fineCandidate F fs i) (h1 : fineCandidate F fs i ≤ fs / 2) :
    (fineState F fs (i + 1)).2 ≤
      ((cutoffErr F fs (fineCandidate F fs i) : ℝ) : WithTop ℝ) := by
  rw [fineState_succ, if_neg (by push_neg; exact ⟨h0, h1⟩), scanUpdate]
  by_cases hx : ((cutoffErr F fs (fineCandidate F fs i) : ℝ) : WithTop ℝ) <
      (fineState F fs i).2
  · rw [if_pos hx]
  · rw [if_neg hx]
    exact not_lt.mp hx

/-- The running best frequency is always the coarse best or one of the fine
candidates actually examined. -/
theorem fineState_fst_mem (F : ButterworthFilter) (fs : ℝ) :
    ∀ i, (fineState F fs i).1 = (coarseScan F fs).1 ∨
      ∃ j, j < i ∧ (fineState F fs i).1 = fineCandidate F fs j := by
  intro i
  induction i with
  | zero => exact Or.inl rfl
  | succ i ih =>
      rw [fineState_succ]
      by_cases hg : fineCandidate F fs i < 0 ∨ fs / 2 < fineCandidate F fs i
      · rw [if_pos hg]
        rcases ih with h | ⟨j, hj, hv⟩
        · exact Or.inl h
        · exact Or.inr ⟨j, by omega, hv⟩
      · rw [if_neg hg, scanUpdate]
        by_cases hx : ((cutoffErr F fs (fineCandidate F fs i) : ℝ) : WithTop ℝ) <
            (fineState F fs i).2
        · rw [if_pos hx]
          exact Or.inr ⟨i, by omega, rfl⟩
        · rw [if_neg hx]
          rcases ih with h | ⟨j, hj, hv⟩
          · exact Or.inl h
          · exact Or.inr ⟨j, by omega, hv⟩

/-- C9 (amended): `find_3db_cutoff` performs a two-phase search — the coarse
scan over the 10000 uniform frequencies of `coarseFreqList` tracking the
frequency minimizing `| |H(f)| − 1/√2 |`, then 1000 fine steps whose
candidates are recomputed from the *running* best frequency (so the fine grid
re-centres itself after every improvement, rather than staying centred on the
coarse best as the original claim and the spec state), skipping candidates
outside `[0, fs/2]`.  It returns the best frequency found over all points it
actually examined: the result is the coarse best or one of the examined fine
candidates, and its error is at most the error of every coarse frequency and
of every in-range fine candidate. -/
theorem C9_amended_running_best (F : ButterworthFilter) (fs : ℝ) (hp : Bool) :
    find_3db_cutoff F fs hp = (fineState F fs 1000).1 ∧
    (find_3db_cutoff F fs hp = (coarseScan F fs).1 ∨
      ∃ j, j < 1000 ∧ find_3db_cutoff F fs hp = fineCandidate F fs j) ∧
    (∀ f ∈ coarseFreqList fs,
      cutoffErr F fs (find_3db_cutoff F fs hp) ≤ cutoffErr F fs f) ∧
    (∀ i, i < 1000 → 0 ≤ fineCandidate F fs i → fineCandidate F fs i ≤ fs / 2 →
      cutoffErr F fs (find_3db_cutoff F fs hp) ≤
        cutoffErr F fs (fineCandidate F fs i)) := by
  have hbridge : find_3db_cutoff F fs hp = (fineState F fs 1000).1 := by
    rw [find_3db_cutoff, foldl_fineStep_eq_fineState]
  have hrec := fineState_snd_eq F fs 1000
  refine ⟨hbridge, ?_, ?_, ?_⟩
  · rw [hbridge]
    exact fineState_fst_mem F fs 1000
  · intro f hf
    rw [← WithTop.coe_le_coe, hbridge, ← hrec]
    calc (fineState F fs 1000).2
        ≤ (fineState F fs 0).2 := fineState_snd_mono F fs 0 1000 (by omega)
      _ ≤ ((cutoffErr F fs f : ℝ) : WithTop ℝ) := (coarseScan_spec F fs).2.2 f hf
  · intro i hi h0 h1
    rw [← WithTop.coe_le_coe, hbridge, ← hrec]
    calc (fineState F fs 1000).2
        ≤ (fineState F fs (i + 1)).2 := fineState_snd_mono F fs (i + 1) 1000 (by omega)
      _ ≤ ((cutoffErr F fs (fineCandidate F fs i) : ℝ) : WithTop ℝ) :=
          fineState_snd_le_candidate F fs i h0 h1

/-- Modelled from the spec: the fine-scan grid as the spec and the original
claim describe it — 1000 points fixed within one coarse step-width centred on
the *coarse* best estimate.  The source instead recomputes every candidate
from the running `best_freq`; this definition exists only to state the
counterexample against that description. -/
def specFineFreqList (filter : ButterworthFilter) (sample_rate : ℝ) : List ℝ :=
  (List.range 1000).map (fun (i : ℕ) =>
    (coarseScan filter sample_rate).1 - (sample_rate / 2 / 10000) / 2 +
      (i : ℝ) * (sample_rate / 2 / 10000) / 1000)

/-- A concrete first-order FIR filter `H(z) = (1 − z⁻¹)/4` at `fs = 2`: its
magnitude `|sin(ω/2)|/2` increases strictly towards Nyquist and stays below
`1/√2`, so the 3 dB-search error decreases strictly in frequency and the fine
scan keeps improving — exhibiting the drift of the fine grid. -/
def rampFilter : ButterworthFilter :=
  ⟨[1 / 4, -(1 / 4)], [1], 1, 0, 2, FilterType.Highpass⟩

theorem response_rampFilter (omega : ℝ) :
    frequency_response_at_omega rampFilter omega =
      ⟨(1 - Real.cos omega) / 4, Real.sin omega / 4⟩ := by
  have hb : rampFilter.b = [1 / 4, -(1 / 4)] := rfl
  have ha : rampFilter.a = [1] := rfl
  simp only [frequency_response_at_omega, hb, ha]
  rw [show ([1 / 4, -(1 / 4)] : List ℝ).length = 2 from rfl,
    show ([(1 : ℝ)] : List ℝ).length = 1 from rfl]
  rw [Finset.sum_range_succ, Finset.sum_range_succ, Finset.sum_range_zero,
    Finset.sum_range_succ, Finset.sum_range_zero]
  rw [show (([1 / 4, -(1 / 4)] : List ℝ).getD 0 0) = 1 / 4 from rfl,
    show (([1 / 4, -(1 / 4)] : List ℝ).getD 1 0) = -(1 / 4) from rfl,
    show (([(1 : ℝ)] : List ℝ).getD 0 0) = 1 from rfl]
  apply Complex.ext <;>
    simp [Complex.div_re, Complex.div_im, Complex.normSq_mk, Complex.add_re,
      Complex.add_im, Complex.mul_re, Complex.mul_im] <;>
    ring

theorem magAt_rampFilter (f : ℝ) :
    magAt rampFilter 2 f = |Real.sin (Real.pi * f / 2)| / 2 := by
  rw [magAt, response_rampFilter, Complex.abs_apply, Complex.normSq_mk]
  have h22 : 2 * Real.pi * f / 2 = Real.pi * f := by ring
  rw [h22]
  have hhalf : Real.sin (Real.pi * f / 2) ^ 2 = 1 / 2 - Real.cos (Real.pi * f) / 2 := by
    have h := Real.sin_sq_eq_half_sub (Real.pi * f / 2)
    rw [show 2 * (Real.pi * f / 2) = Real.pi * f by ring] at h
    exact h
  have harg : (1 - Real.cos (Real.pi * f)) / 4 * ((1 - Real.cos (Real.pi * f)) / 4) +
      Real.sin (Real.pi * f) / 4 * (Real.sin (Real.pi * f) / 4) =
      (Real.sin (Real.pi * f / 2) / 2) ^ 2 := by
    have hpy := Real.sin_sq_add_cos_sq (Real.pi * f)
    nlinarith [hhalf, hpy]
  rw [harg, Real.sqrt_sq_eq_abs, abs_div]
  norm_num

theorem cutoffErr_rampFilter (f : ℝ) :
    cutoffErr rampFilter 2 f = 1 / Real.sqrt 2 - |Real.sin (Real.pi * f / 2)| / 2 := by
  rw [cutoffErr, magAt_rampFilter]
  have hs1 : |Real.sin (Real.pi * f / 2)| ≤ 1 :=
    abs_le.mpr ⟨Real.neg_one_le_sin _, Real.sin_le_one _⟩
  have hlt : Real.sqrt 2 < 2 := (Real.sqrt_lt' (by norm_num)).mpr (by norm_num)
  have hpos : 0 < Real.sqrt 2 := Real.sqrt_pos.mpr (by norm_num)
  have h2 : (1 : ℝ) / 2 < 1 / Real.sqrt 2 := by
    rw [div_lt_div_iff (by norm_num) hpos]
    linarith
  rw [abs_of_nonpos (by linarith)]
  ring

/-- On `[0, 1]` (the Nyquist band at `fs = 2`) the 3 dB-search error of
`rampFilter` is strictly decreasing in frequency. -/
theorem err_ramp_strict_anti {x y : ℝ} (hx : 0 ≤ x) (hxy : x < y) (hy : y ≤ 1) :
    cutoffErr rampFilter 2 y < cutoffErr rampFilter 2 x := by
  rw [cutoffErr_rampFilter, cutoffErr_rampFilter]
  have hpi := Real.pi_pos
  have hpile : Real.pi ≤ 4 := le_of_lt (lt_trans Real.pi_lt_315 (by norm_num))
  have hax : Real.pi * x / 2 ∈ Set.Icc (-(Real.pi / 2)) (Real.pi / 2) := by
    constructor
    · nlinarith
    · nlinarith
  have hay : Real.pi * y / 2 ∈ Set.Icc (-(Real.pi / 2)) (Real.pi / 2) := by
    constructor
    · nlinarith
    · nlinarith
  have hlt : Real.sin (Real.pi * x / 2) < Real.sin (Real.pi * y / 2) :=
    Real.strictMonoOn_sin hax hay (by nlinarith)
  have hx0 : 0 ≤ Real.sin (Real.pi * x / 2) :=
    Real.sin_nonneg_of_nonneg_of_le_pi (by positivity) (by nlinarith)
  rw [abs_of_nonneg hx0, abs_of_nonneg (by linarith)]
  linarith

theorem err_ramp_anti {x y : ℝ} (hx : 0 ≤ x) (hxy : x ≤ y) (hy : y ≤ 1) :
    cutoffErr rampFilter 2 y ≤ cutoffErr rampFilter 2 x := by
  rcases eq_or_lt_of_le hxy with rfl | h
  · exact le_refl _
  · exact le_of_lt (err_ramp_strict_anti hx h hy)

/-- When the error strictly decreases along the scanned list, the
strict-improvement fold updates at every step and ends on the last
frequency. -/
theorem scanUpdate_foldl_decreasing (err : ℝ → ℝ) (g : ℕ → ℝ) :
    ∀ n, 1 ≤ n → (∀ k, k + 1 < n → err (g (k + 1)) < err (g k)) →
      ((List.range n).map g).foldl (scanUpdate err) (0, (⊤ : WithTop ℝ)) =
        (g (n - 1), ((err (g (n - 1)) : ℝ) : WithTop ℝ)) := by
  intro n
  induction n with
  | zero => intro h; exact absurd h (by norm_num)
  | succ n ih =>
      intro _ hdec
      rcases Nat.eq_zero_or_pos n with rfl | hn
      · rw [show List.range 1 = [0] from rfl, List.map_cons, List.map_nil,
          List.foldl_cons, List.foldl_nil, scanUpdate,
          if_pos (WithTop.coe_lt_top _)]
      · rw [List.range_succ, List.map_append, List.foldl_append,
          ih hn (fun k hk => hdec k (by omega))]
        rw [List.map_cons, List.map_nil, List.foldl_cons, List.foldl_nil, scanUpdate]
        have hd := hdec (n - 1) (by omega)
        rw [show n - 1 + 1 = n from by omega] at hd
        rw [if_pos (show ((err (g n) : ℝ) : WithTop ℝ) <
            (g (n - 1), ((err (g (n - 1)) : ℝ) : WithTop ℝ)).2 from
            WithTop.coe_lt_coe.mpr hd)]
        norm_num

/-- For `rampFilter` at `fs = 2` the coarse phase ends on the very last
coarse frequency `9999/10000`. -/
theorem coarseScan_rampFilter :
    coarseScan rampFilter 2 =
      (9999 / 10000, ((cutoffErr rampFilter 2 (9999 / 10000) : ℝ) : WithTop ℝ)) := by
  rw [coarseScan, coarseFreqList]
  rw [scanUpdate_foldl_decreasing (cutoffErr rampFilter 2)
    (fun (i : ℕ) => (i : ℝ) * (2 / 2) / 10000) 10000 (by norm_num) ?_]
  · norm_num
  · intro k hk
    have hk' : (k : ℝ) + 1 ≤ 9999 := by exact_mod_cast (by omega : k + 1 ≤ 9999)
    refine err_ramp_strict_anti (by positivity) ?_ ?_
    · push_cast
      have : (k : ℝ) < (k : ℝ) + 1 := by linarith
      nlinarith
    · push_cast
      linarith

/-- Steps `0..500` of the fine loop examine candidates at or below the
running best and change nothing. -/
theorem fineState_rampFilter_first :
    ∀ i, i ≤ 501 → fineState rampFilter 2 i =
      (9999 / 10000, ((cutoffErr rampFilter 2 (9999 / 10000) : ℝ) : WithTop ℝ)) := by
  intro i
  induction i with
  | zero => intro _; exact coarseScan_rampFilter
  | succ i ih =>
      intro hi
      have hprev := ih (by omega)
      have hi500 : (i : ℝ) ≤ 500 := by exact_mod_cast (by omega : i ≤ 500)
      have hcand : fineCandidate rampFilter 2 i =
          9999 / 10000 - 1 / 20000 + (i : ℝ) / 10000000 := by
        rw [fineCandidate, hprev]
        norm_num
        ring
      rw [fineState_succ, hcand, hprev]
      have hguard : ¬ ((9999 / 10000 - 1 / 20000 + (i : ℝ) / 10000000 < 0) ∨
          ((2 : ℝ) / 2 < 9999 / 10000 - 1 / 20000 + (i : ℝ) / 10000000)) := by
        push_neg
        constructor
        · positivity
        · linarith
      rw [if_neg hguard, scanUpdate]
      have hle : cutoffErr rampFilter 2 (9999 / 10000) ≤
          cutoffErr rampFilter 2 (9999 / 10000 - 1 / 20000 + (i : ℝ) / 10000000) := by
        refine err_ramp_anti (by positivity) (by linarith) (by norm_num)
      rw [if_neg (show
        ¬ (((cutoffErr rampFilter 2 (9999 / 10000 - 1 / 20000 + (i : ℝ) / 10000000) : ℝ) :
              WithTop ℝ) <
            ((9999 / 10000 : ℝ),
              ((cutoffErr rampFilter 2 (9999 / 10000) : ℝ) : WithTop ℝ)).2) from
        not_lt.mpr (WithTop.coe_le_coe.mpr hle))]

/-- Triangular numbers: the cumulative drift of the fine scan. -/
def tri : ℕ → ℕ
  | 0 => 0
  | m + 1 => tri m + (m + 1)

theorem tri_le (m : ℕ) (hm : m ≤ 44) : tri m ≤ 990 := by
  have h : ∀ k < 45, tri k ≤ 990 := by decide
  exact h m (by omega)

/-- Steps `501..544` each improve on the running best, so the best frequency
drifts upward by the triangular numbers: after step `501 + m − 1` it sits at
`9999/10000 + tri m · 10⁻⁷` — far beyond the fixed window after a few
steps. -/
theorem fineState_rampFilter_ascent :
    ∀ m, m ≤ 44 → fineState rampFilter 2 (501 + m) =
      (9999 / 10000 + (tri m : ℝ) / 10000000,
       ((cutoffErr rampFilter 2 (9999 / 10000 + (tri m : ℝ) / 10000000) : ℝ) :
         WithTop ℝ)) := by
  intro m
  induction m with
  | zero =>
      intro _
      have h := fineState_rampFilter_first 501 (le_refl _)
      rw [h]
      norm_num [tri]
  | succ m ih =>
      intro hm
      have hprev := ih (by omega)
      have htri : tri m ≤ 990 := tri_le m (by omega)
      have htri1 : tri (m + 1) = tri m + (m + 1) := rfl
      have htriR : ((tri (m + 1) : ℕ) : ℝ) = (tri m : ℝ) + (m : ℝ) + 1 := by
        rw [htri1]; push_cast; ring
      have htri1b : tri (m + 1) ≤ 990 := tri_le (m + 1) (by omega)
      have htriR990 : ((tri (m + 1) : ℕ) : ℝ) ≤ 990 := by exact_mod_cast htri1b
      have hcand : fineCandidate rampFilter 2 (501 + m) =
          9999 / 10000 + (tri (m + 1) : ℝ) / 10000000 := by
        rw [fineCandidate, hprev, htriR]
        push_cast
        norm_num
        ring
      rw [show 501 + (m + 1) = (501 + m) + 1 from by omega, fineState_succ, hcand, hprev]
      have hguard : ¬ ((9999 / 10000 + (tri (m + 1) : ℝ) / 10000000 < 0) ∨
          ((2 : ℝ) / 2 < 9999 / 10000 + (tri (m + 1) : ℝ) / 10000000)) := by
        push_neg
        constructor
        · positivity
        · linarith [htriR990]
      rw [if_neg hguard, scanUpdate]
      have hlt : cutoffErr rampFilter 2 (9999 / 10000 + (tri (m + 1) : ℝ) / 10000000) <
          cutoffErr rampFilter 2 (9999 / 10000 + (tri m : ℝ) / 10000000) := by
        refine err_ramp_strict_anti (by positivity) ?_ ?_
        · rw [htriR]
          have : (0 : ℝ) ≤ (m : ℝ) := by positivity
          linarith
        · linarith [htriR990]
      rw [if_pos (show
        (((cutoffErr rampFilter 2 (9999 / 10000 + (tri (m + 1) : ℝ) / 10000000) : ℝ) :
            WithTop ℝ) <
          ((9999 / 10000 + (tri m : ℝ) / 10000000 : ℝ),
            ((cutoffErr rampFilter 2 (9999 / 10000 + (tri m : ℝ) / 10000000) : ℝ) :
              WithTop ℝ)).2) from
        WithTop.coe_lt_coe.mpr hlt)]

/-- From step `545` on, every candidate overshoots Nyquist and is skipped, so
the state freezes at `9999/10000 + 990·10⁻⁷ = 999999/1000000`. -/
theorem fineState_rampFilter_frozen :
    ∀ d, d ≤ 455 → fineState rampFilter 2 (545 + d) =
      (9999 / 10000 + 990 / 10000000,
       ((cutoffErr rampFilter 2 (9999 / 10000 + 990 / 10000000) : ℝ) : WithTop ℝ)) := by
  intro d
  induction d with
  | zero =>
      intro _
      have h := fineState_rampFilter_ascent 44 (le_refl _)
      have h44 : tri 44 = 990 := by decide
      rw [show (545 : ℕ) = 501 + 44 from rfl, h, h44]
      norm_num
  | succ d ih =>
      intro hd
      have hprev := ih (by omega)
      have hdR : (0 : ℝ) ≤ (d : ℝ) := by positivity
      have hcand : fineCandidate rampFilter 2 (545 + d) =
          9999 / 10000 + (1035 + (d : ℝ)) / 10000000 := by
        rw [fineCandidate, hprev]
        push_cast
        norm_num
        ring
      rw [show 545 + (d + 1) = (545 + d) + 1 from by omega, fineState_succ, hcand]
      rw [if_pos (Or.inr (by norm_num; linarith))]
      exact hprev

/-- The drifted final answer of the fine loop for `rampFilter` at `fs = 2`. -/
theorem find_3db_rampFilter :
    find_3db_cutoff rampFilter 2 false = 999999 / 1000000 := by
  rw [find_3db_cutoff, foldl_fineStep_eq_fineState,
    show (1000 : ℕ) = 545 + 455 from rfl, fineState_rampFilter_frozen 455 (le_refl _)]
  norm_num

/-- C9 counterexample: for the concrete filter `rampFilter` at `fs = 2` the
search returns `999999/1000000`, which is neither one of the 10000 coarse
frequencies nor one of the 1000 fine frequencies "within one coarse
step-width centered on the coarse best estimate" (`specFineFreqList`): the
fine grid drifts with the running best (here 990 fine steps beyond the coarse
best `9999/10000`), so the original description of the scanned points — and
hence of the returned "best frequency found over all scanned points" — is
false of the code. -/
theorem C9_counterexample :
    find_3db_cutoff rampFilter 2 false = 999999 / 1000000 ∧
    (coarseScan rampFilter 2).1 = 9999 / 10000 ∧
    (999999 / 1000000 : ℝ) ∉ coarseFreqList 2 ∧
    (999999 / 1000000 : ℝ) ∉ specFineFreqList rampFilter 2 := by
  have hc : (coarseScan rampFilter 2).1 = 9999 / 10000 := by
    rw [coarseScan_rampFilter]
  refine ⟨find_3db_rampFilter, hc, ?_, ?_⟩
  · intro hmem
    rw [coarseFreqList, List.mem_map] at hmem
    obtain ⟨i, hi, heq⟩ := hmem
    rw [List.mem_range] at hi
    have h100 : (100 * i : ℕ) = 999999 := by
      have hR : ((100 * i : ℕ) : ℝ) = 999999 := by
        push_cast
        nlinarith [heq]
      exact_mod_cast hR
    omega
  · intro hmem
    rw [specFineFreqList, List.mem_map] at hmem
    obtain ⟨i, hi, heq⟩ := hmem
    rw [List.mem_range] at hi
    rw [hc] at heq
    have h1490 : i = 1490 := by
      have hR : ((i : ℕ) : ℝ) = 1490 := by nlinarith [heq]
      exact_mod_cast hR
    omega

end
